import Mathlib

/-!
Verification of SeedOS kernel components against their specification.

Shallow embedding of the relevant C sources:
  * src/unnamed/part_002  (spin locks: push_off / pop_off interrupt nesting)
  * src/kernel/trap.c     (kerneltrap, devintr)
  * src/kernel/proc.c     (wakeup, kill)
  * src/kernel/bio.c      (bget)
  * src/kernel/console.c  (consoleintr, consoleread)
  * src/kernel/fs.c       (balloc, bmap, readi, writei, skipelem, namex)

Machine integers are modelled as Nat; where C unsigned overflow matters the
reduction modulo 2^32 is written explicitly.  Lock acquire/release and the
write-ahead log are outside the sequential model: operations that the code
performs under a lock / inside a transaction are modelled as the
corresponding pure state transformations.
-/

namespace SeedOS

/-! ### Interrupt push_off / pop_off discipline (src/unnamed/part_002, lines 127-150) -/

/-- Per-CPU record: the nested-disable depth `noff`, the saved
"interrupts were enabled before the first push_off" flag `intena`,
and the current machine interrupt-enable state `intr`
(`intr_get` / `intr_on` / `intr_off`). -/
structure Cpu where
  noff : Nat
  intena : Bool
  intr : Bool
deriving DecidableEq, Repr

/-- push_off from part_002: save `intr_get`, disable interrupts, record the
saved flag on the 0 to 1 transition of `noff`, then increment `noff`. -/
def push_off (c : Cpu) : Cpu :=
  let old := c.intr
  let c1 : Cpu := { c with intr := false }
  let c2 : Cpu := if c1.noff = 0 then { c1 with intena := old } else c1
  { c2 with noff := c2.noff + 1 }

/-- pop_off from part_002: panic (`none`) if interrupts are enabled or
`noff < 1`; otherwise decrement `noff` and, when it reaches 0 with
`intena` set, re-enable interrupts. -/
def pop_off (c : Cpu) : Option Cpu :=
  if c.intr then none
  else if c.noff < 1 then none
  else
    let c1 : Cpu := { c with noff := c.noff - 1 }
    if c1.noff = 0 ∧ c1.intena then some { c1 with intr := true } else some c1

/-- One step of the matched push_off / pop_off protocol. -/
inductive PPOp where
  | push : PPOp
  | pop : PPOp
deriving DecidableEq, Repr

/-- Run a sequence of push_off / pop_off calls on a CPU; `none` means some
pop_off panicked. -/
def runPP : Cpu → List PPOp → Option Cpu
  | c, [] => some c
  | c, .push :: ops => runPP (push_off c) ops
  | c, .pop :: ops =>
    match pop_off c with
    | none => none
    | some c1 => runPP c1 ops

/-- Number of push_off calls in a trace. -/
def npush (ops : List PPOp) : Nat := ops.countP (fun o => o matches .push)

/-- Number of pop_off calls in a trace. -/
def npop (ops : List PPOp) : Nat := ops.countP (fun o => o matches .pop)

/-! ### Kernel trap dispatch (src/kernel/trap.c, lines 205-290 and 313-355) -/

/-- devintr from trap.c reduced to its classification of `scause`:
2 for a timer interrupt, 1 for a PLIC-mediated external interrupt,
0 for an unrecognised cause.  The uart / virtio handler side effects are
outside this model. -/
def devintr (scause : Nat) : Nat :=
  if scause = 0x8000000000000009 then 1
  else if scause = 0x8000000000000005 then 2
  else 0

/-- Result of kerneltrap: either a panic, or a normal return recording
whether `yield()` was invoked on the way. -/
inductive KTrapRes where
  | panicked : KTrapRes
  | returned : Bool → KTrapRes
deriving DecidableEq, Repr

/-- kerneltrap from trap.c: panic unless the trap came from supervisor mode
with interrupts disabled and `devintr` recognises the cause; call `yield()`
exactly when the cause is a timer tick (`which_dev == 2`) and the CPU has a
current process (`myproc() != 0`). -/
def kerneltrap (sstatusSPP : Bool) (intrOn : Bool) (scause : Nat)
    (hasProc : Bool) : KTrapRes :=
  if ¬ sstatusSPP then .panicked
  else if intrOn then .panicked
  else
    let which_dev := devintr scause
    if which_dev = 0 then .panicked
    else .returned (which_dev == 2 && hasProc)

/-! ### Process table: wakeup and kill (src/kernel/proc.c, lines 834-874) -/

/-- Process lifecycle states from proc.h. -/
inductive PState where
  | UNUSED | USED | SLEEPING | RUNNABLE | RUNNING | ZOMBIE
deriving DecidableEq, Repr

/-- The slice of a process slot that wakeup and kill read or write:
pid, state, wait channel and kill flag.  Each slot's spin lock is held by
the code around every state transition; locking itself is outside the
sequential model. -/
structure Proc where
  pid : Nat
  state : PState
  chan : Nat
  killed : Bool
deriving DecidableEq, Repr

/-- The scan of wakeup from proc.c, carrying the slot index: every slot
other than the caller's own (`p != myproc()`) that is SLEEPING on `chan`
becomes RUNNABLE. -/
def wakeupFrom (me chan : Nat) : Nat → List Proc → List Proc
  | _, [] => []
  | i, p :: ps =>
    (if i = me then p
     else if p.state = .SLEEPING ∧ p.chan = chan then { p with state := .RUNNABLE }
     else p) :: wakeupFrom me chan (i + 1) ps

/-- wakeup(chan) from proc.c, scanning the whole table; `me` is the index of
the caller's own slot (`myproc()`). -/
def wakeup (ptable : List Proc) (me chan : Nat) : List Proc :=
  wakeupFrom me chan 0 ptable

/-- kill(pid) from proc.c: scan for the first slot holding `pid`; set its
kill flag, make it RUNNABLE if it was SLEEPING, and return 0; return -1 if
no slot holds `pid`. -/
def kill : List Proc → Nat → Int × List Proc
  | [], _ => (-1, [])
  | p :: ps, pid =>
    if p.pid = pid then
      (0, { p with killed := true, state := (if p.state = .SLEEPING then PState.RUNNABLE else p.state) } :: ps)
    else
      let r := kill ps pid
      (r.1, p :: r.2)

/-! ### Theorems about push_off / pop_off -/

theorem npush_cons (o : PPOp) (l : List PPOp) :
    npush (o :: l) = npush l + (if o = .push then 1 else 0) := by
  cases o <;> simp [npush, List.countP_cons]

theorem npop_cons (o : PPOp) (l : List PPOp) :
    npop (o :: l) = npop l + (if o = .pop then 1 else 0) := by
  cases o <;> simp [npop, List.countP_cons]

theorem push_off_noff (c : Cpu) : (push_off c).noff = c.noff + 1 := by
  obtain ⟨n, ia, ir⟩ := c
  by_cases h : n = 0 <;> simp [push_off, h]

theorem push_off_intr (c : Cpu) : (push_off c).intr = false := by
  obtain ⟨n, ia, ir⟩ := c
  by_cases h : n = 0 <;> simp [push_off, h]

theorem push_off_intena (c : Cpu) :
    (push_off c).intena = if c.noff = 0 then c.intr else c.intena := by
  obtain ⟨n, ia, ir⟩ := c
  by_cases h : n = 0 <;> simp [push_off, h]

theorem pop_off_spec (c : Cpu) (hintr : c.intr = false) (hpos : 1 ≤ c.noff) :
    pop_off c = some { noff := c.noff - 1,
                       intena := c.intena,
                       intr := if c.noff - 1 = 0 ∧ c.intena = true then true else false } := by
  obtain ⟨n, ia, ir⟩ := c
  simp only at hintr hpos
  subst hintr
  unfold pop_off
  simp only [Bool.false_eq_true, if_false]
  rw [if_neg (by simpa using by omega : ¬ n < 1)]
  by_cases hcond : n - 1 = 0 ∧ ia = true
  · rw [if_pos (by simpa using hcond), if_pos hcond]
  · rw [if_neg (by simpa using hcond), if_neg hcond]

theorem runPP_inv (base : Bool) :
    ∀ (ops : List PPOp) (c : Cpu),
      ((c.noff ≠ 0 → c.intr = false ∧ c.intena = base) ∧ (c.noff = 0 → c.intr = base)) →
      (∀ k, k ≤ ops.length → npop (ops.take k) ≤ c.noff + npush (ops.take k)) →
      ∃ c1, runPP c ops = some c1 ∧
        c1.noff + npop ops = c.noff + npush ops ∧
        (c1.noff ≠ 0 → c1.intr = false ∧ c1.intena = base) ∧
        (c1.noff = 0 → c1.intr = base) := by
  intro ops
  induction ops with
  | nil =>
    intro c hI _
    exact ⟨c, rfl, by simp [npush, npop], hI.1, hI.2⟩
  | cons o rest ih =>
    intro c hI hnest
    cases o with
    | push =>
      have hinv : ((push_off c).noff ≠ 0 → (push_off c).intr = false ∧
          (push_off c).intena = base) ∧ ((push_off c).noff = 0 → (push_off c).intr = base) := by
        constructor
        · intro _
          refine ⟨push_off_intr c, ?_⟩
          rw [push_off_intena]
          by_cases h0 : c.noff = 0
          · simp [h0, hI.2 h0]
          · simp [h0, (hI.1 h0).2]
        · intro h; rw [push_off_noff] at h; omega
      have hnest' : ∀ k, k ≤ rest.length →
          npop (rest.take k) ≤ (push_off c).noff + npush (rest.take k) := by
        intro k hk
        have := hnest (k + 1) (by simpa using Nat.succ_le_succ hk)
        simp only [List.take_succ_cons, npop_cons, npush_cons] at this
        rw [push_off_noff]
        simp at this
        omega
      obtain ⟨c1, hrun, hcount, hne, heq⟩ := ih (push_off c) hinv hnest'
      refine ⟨c1, hrun, ?_, hne, heq⟩
      rw [push_off_noff] at hcount
      simp only [npop_cons, npush_cons]
      simp
      omega
    | pop =>
      have hpos : 1 ≤ c.noff := by
        have := hnest 1 (by simp)
        simpa [List.take_succ_cons, npop_cons, npush_cons, npop, npush] using this
      have hintr : c.intr = false ∧ c.intena = base := hI.1 (by omega)
      set c2 : Cpu := { noff := c.noff - 1, intena := c.intena,
                        intr := if c.noff - 1 = 0 ∧ c.intena = true then true else false }
        with hc2
      have hinv : (c2.noff ≠ 0 → c2.intr = false ∧ c2.intena = base) ∧
          (c2.noff = 0 → c2.intr = base) := by
        constructor
        · intro hne
          rw [hc2] at hne ⊢
          simp only at hne ⊢
          rw [if_neg (by simp at hne; omega)]
          exact ⟨rfl, hintr.2⟩
        · intro h0
          rw [hc2] at h0 ⊢
          simp only at h0 ⊢
          rw [← hintr.2]
          by_cases hia : c.intena = true
          · rw [if_pos ⟨h0, hia⟩, hia]
          · rw [if_neg (by tauto)]
            simp at hia
            rw [hia]
      have hnest' : ∀ k, k ≤ rest.length →
          npop (rest.take k) ≤ c2.noff + npush (rest.take k) := by
        intro k hk
        have := hnest (k + 1) (by simpa using Nat.succ_le_succ hk)
        simp only [List.take_succ_cons, npop_cons, npush_cons] at this
        rw [hc2]
        simp only
        simp at this
        omega
      obtain ⟨cf, hrun, hcount, hne, heq⟩ := ih c2 hinv hnest'
      refine ⟨cf, ?_, ?_, hne, heq⟩
      · show runPP c (.pop :: rest) = some cf
        simp only [runPP, pop_off_spec c hintr.1 hpos]
        exact hrun
      · rw [hc2] at hcount
        simp only at hcount
        simp only [npop_cons, npush_cons]
        simp
        omega

/-- Claim C4: for every properly nested push_off / pop_off trace on a CPU
starting with nesting count 0, no pop_off panics, interrupts are disabled
whenever the final nesting count is positive, the `intena` flag records
whether interrupts were enabled before the outermost push_off as long as
the nesting is open, and once the trace is balanced the interrupt-enable
state is restored to exactly its value before the outermost push_off.
Since the theorem quantifies over all nested traces it applies to every
prefix of a trace as well, so "interrupts remain disabled whenever the
nesting count is positive" holds at every intermediate point. -/
theorem pushpop_interrupt_discipline (c0 : Cpu) (ops : List PPOp)
    (h0 : c0.noff = 0)
    (hnest : ∀ k, k ≤ ops.length → npop (ops.take k) ≤ npush (ops.take k)) :
    ∃ c1, runPP c0 ops = some c1 ∧
      c1.noff + npop ops = npush ops ∧
      (c1.noff ≠ 0 → c1.intr = false ∧ c1.intena = c0.intr) ∧
      (c1.noff = 0 → c1.intr = c0.intr) := by
  have := runPP_inv c0.intr ops c0
    ⟨fun h => absurd h0 h, fun _ => rfl⟩
    (by intro k hk; rw [h0]; simpa using hnest k hk)
  simpa [h0] using this

/-- Witness for C4 at the concrete trace push, push, pop, pop starting from
interrupts enabled. -/
theorem pushpop_interrupt_discipline_witness :
    ∃ c1, runPP ⟨0, false, true⟩ [.push, .push, .pop, .pop] = some c1 ∧
      c1.noff + npop [.push, .push, .pop, .pop] = npush [.push, .push, .pop, .pop] ∧
      (c1.noff ≠ 0 → c1.intr = false ∧ c1.intena = (Cpu.mk 0 false true).intr) ∧
      (c1.noff = 0 → c1.intr = (Cpu.mk 0 false true).intr) :=
  pushpop_interrupt_discipline ⟨0, false, true⟩ [.push, .push, .pop, .pop] rfl (by decide)

/-! ### Theorem about kerneltrap -/

/-- Claim C5: kerneltrap yields exactly when the trap was taken from
supervisor mode with interrupts disabled, the cause is a timer tick, and the
CPU has a current process; in particular a timer tick arriving while the CPU
runs the scheduler (no current process) returns without yielding. -/
theorem kerneltrap_yield_condition (spp intrOn : Bool) (scause : Nat) (hasProc : Bool) :
    (kerneltrap spp intrOn scause hasProc = .returned true ↔
      spp = true ∧ intrOn = false ∧ scause = 0x8000000000000005 ∧ hasProc = true) ∧
    kerneltrap true false 0x8000000000000005 false = .returned false := by
  refine ⟨?_, by decide⟩
  unfold kerneltrap devintr
  by_cases hspp : spp
  · by_cases hio : intrOn
    · simp [hspp, hio]
    · by_cases h9 : scause = 0x8000000000000009
      · simp [hspp, hio, h9]
      · by_cases h5 : scause = 0x8000000000000005
        · cases hasProc <;> simp [hspp, hio, h9, h5]
        · simp [hspp, hio, h9, h5]
  · simp [hspp]

/-! ### Theorems about wakeup and kill -/

theorem wakeupFrom_get (me chan : Nat) :
    ∀ (ps : List Proc) (s i : Nat),
      (wakeupFrom me chan s ps)[i]? =
        (ps[i]?).map (fun p =>
          if s + i = me then p
          else if p.state = .SLEEPING ∧ p.chan = chan then { p with state := .RUNNABLE }
          else p) := by
  intro ps
  induction ps with
  | nil => intro s i; simp [wakeupFrom]
  | cons p rest ih =>
    intro s i
    cases i with
    | zero => simp [wakeupFrom]
    | succ j =>
      simp only [wakeupFrom, List.getElem?_cons_succ]
      rw [ih (s + 1) j]
      have hsj : s + 1 + j = s + (j + 1) := by omega
      simp only [hsj]

/-- Claim C3: wakeup(chan) scans every process slot; assuming the spec
invariant that the caller's own slot is RUNNING, every slot that is SLEEPING
on `chan` becomes RUNNABLE and every other slot keeps its state.  The scan
acquires each slot's lock around the transition; locking is outside this
sequential model. -/
theorem wakeup_spec (ptable : List Proc) (me chan : Nat)
    (hrun : ∀ p, ptable[me]? = some p → p.state = .RUNNING) :
    ∀ (i : Nat) (p : Proc), ptable[i]? = some p →
      (wakeup ptable me chan)[i]? =
        some (if p.state = .SLEEPING ∧ p.chan = chan then { p with state := .RUNNABLE }
              else p) := by
  intro i p hp
  unfold wakeup
  rw [wakeupFrom_get me chan ptable 0 i, hp]
  simp only [Option.map_some']
  by_cases hme : i = me
  · have : p.state = .RUNNING := hrun p (by rw [hme] at hp; exact hp)
    simp [hme, this]
  · simp [hme]

/-- Witness for C3 on a concrete four-slot table: the sleeper on channel 7
is woken, and the theorem's conclusion specialises to it. -/
theorem wakeup_spec_witness :
    (wakeup [⟨1, .RUNNING, 0, false⟩, ⟨2, .SLEEPING, 7, false⟩,
             ⟨3, .SLEEPING, 9, false⟩, ⟨4, .RUNNABLE, 7, false⟩] 0 7)[1]? =
      some ⟨2, .RUNNABLE, 7, false⟩ := by
  have h := wakeup_spec
    [⟨1, .RUNNING, 0, false⟩, ⟨2, .SLEEPING, 7, false⟩,
     ⟨3, .SLEEPING, 9, false⟩, ⟨4, .RUNNABLE, 7, false⟩] 0 7
    (by intro p hp; simp at hp; subst hp; rfl)
    1 ⟨2, .SLEEPING, 7, false⟩ (by simp)
  simpa using h

/-- Claim C10: kill(pid) returns 0 and updates exactly the first slot
holding `pid` (kill flag set; SLEEPING promoted to RUNNABLE), and returns -1
with the table unchanged when no slot holds `pid`. -/
theorem kill_spec (ptable : List Proc) (pid : Nat) :
    ((∀ p ∈ ptable, p.pid ≠ pid) → kill ptable pid = (-1, ptable)) ∧
    (∀ (i : Nat) (p : Proc), ptable[i]? = some p → p.pid = pid →
      (∀ (j : Nat) (q : Proc), j < i → ptable[j]? = some q → q.pid ≠ pid) →
      kill ptable pid =
        (0, ptable.set i { p with killed := true, state := (if p.state = .SLEEPING then PState.RUNNABLE else p.state) })) := by
  induction ptable with
  | nil =>
    refine ⟨fun _ => rfl, ?_⟩
    intro i p hp
    simp at hp
  | cons hd rest ih =>
    constructor
    · intro hall
      have hhd : hd.pid ≠ pid := hall hd (by simp)
      have := ih.1 (fun p hp => hall p (by simp [hp]))
      simp [kill, hhd, this]
    · intro i p hp hpid hj
      cases i with
      | zero =>
        simp at hp
        subst hp
        simp [kill, hpid]
      | succ k =>
        have hhd : hd.pid ≠ pid := hj 0 hd (by omega) (by simp)
        have hrec := ih.2 k p (by simpa using hp) hpid
          (fun j q hjk hq => hj (j + 1) q (by omega) (by simpa using hq))
        simp [kill, hhd, hrec, List.set_cons_succ]

/-- Witness for C10 on a concrete two-slot table. -/
theorem kill_spec_witness :
    kill [⟨5, .RUNNING, 0, false⟩, ⟨9, .SLEEPING, 3, false⟩] 9 =
      (0, [⟨5, .RUNNING, 0, false⟩, ⟨9, .RUNNABLE, 3, true⟩]) := by
  have h := (kill_spec [⟨5, .RUNNING, 0, false⟩, ⟨9, .SLEEPING, 3, false⟩] 9).2
    1 ⟨9, .SLEEPING, 3, false⟩ (by simp) rfl
    (by intro j q hj hq
        interval_cases j
        simp at hq
        rw [← hq]
        decide)
  simpa using h

/-! ### Buffer cache bget (src/kernel/bio.c, lines 121-195) -/

/-- The buffer-slot fields that bget reads or writes: device, block number,
valid flag and reference count.  The block payload and the per-slot sleep
lock are not needed for the selection logic. -/
structure Buf where
  dev : Nat
  blockno : Nat
  valid : Bool
  refcnt : Nat
deriving DecidableEq, Repr

/-- First loop of bget: scan the recency list from `head.next`
(most-recently-released first); on the first slot carrying (dev, blockno),
increment its refcnt and return its index together with the updated list. -/
def bgetCached : List Buf → Nat → Nat → Option (Nat × List Buf)
  | [], _, _ => none
  | b :: bs, dev, blk =>
    if b.dev = dev ∧ b.blockno = blk then
      some (0, { b with refcnt := b.refcnt + 1 } :: bs)
    else
      match bgetCached bs dev blk with
      | some (i, bs1) => some (i + 1, b :: bs1)
      | none => none

/-- Second loop of bget: scan from `head.prev` (least-recently-released
first, i.e. from the tail of the list); rebind the first slot found with
`refcnt == 0` to (dev, blockno) with `valid = 0` and `refcnt = 1`. -/
def bgetRecycle : List Buf → Nat → Nat → Option (Nat × List Buf)
  | [], _, _ => none
  | b :: bs, dev, blk =>
    match bgetRecycle bs dev blk with
    | some (i, bs1) => some (i + 1, b :: bs1)
    | none =>
      if b.refcnt = 0 then
        some (0, { dev := dev, blockno := blk, valid := false, refcnt := 1 } :: bs)
      else none

/-- bget from bio.c: try the cached scan, then the recycling scan; if both
fail every slot is busy and bget panics (`none`).  The returned slot is
handed back with its sleep lock acquired; locking is outside this
sequential model. -/
def bget (cache : List Buf) (dev blk : Nat) : Option (Nat × List Buf) :=
  match bgetCached cache dev blk with
  | some r => some r
  | none =>
    match bgetRecycle cache dev blk with
    | some r => some r
    | none => none

theorem bgetCached_found (dev blk : Nat) :
    ∀ (cache : List Buf) (i : Nat) (b : Buf), cache[i]? = some b →
      b.dev = dev → b.blockno = blk →
      (∀ (j : Nat) (c : Buf), j < i → cache[j]? = some c → ¬(c.dev = dev ∧ c.blockno = blk)) →
      bgetCached cache dev blk = some (i, cache.set i { b with refcnt := b.refcnt + 1 }) := by
  intro cache
  induction cache with
  | nil => intro i b hb; simp at hb
  | cons hd rest ih =>
    intro i b hb hd1 hd2 hj
    cases i with
    | zero =>
      simp at hb
      subst hb
      simp [bgetCached, hd1, hd2]
    | succ k =>
      have hhd : ¬(hd.dev = dev ∧ hd.blockno = blk) := hj 0 hd (by omega) (by simp)
      have hrec := ih k b (by simpa using hb) hd1 hd2
        (fun j c hjk hc => hj (j + 1) c (by omega) (by simpa using hc))
      simp [bgetCached, hhd, hrec, List.set_cons_succ]

theorem bgetCached_none (dev blk : Nat) :
    ∀ (cache : List Buf),
      (∀ b ∈ cache, ¬(b.dev = dev ∧ b.blockno = blk)) →
      bgetCached cache dev blk = none := by
  intro cache
  induction cache with
  | nil => intro _; rfl
  | cons hd rest ih =>
    intro hall
    have hhd := hall hd (by simp)
    have := ih (fun b hb => hall b (by simp [hb]))
    simp [bgetCached, hhd, this]

theorem bgetRecycle_none (dev blk : Nat) :
    ∀ (cache : List Buf),
      (∀ b ∈ cache, b.refcnt ≠ 0) →
      bgetRecycle cache dev blk = none := by
  intro cache
  induction cache with
  | nil => intro _; rfl
  | cons hd rest ih =>
    intro hall
    have hhd := hall hd (by simp)
    have := ih (fun b hb => hall b (by simp [hb]))
    simp [bgetRecycle, hhd, this]

theorem bgetRecycle_found (dev blk : Nat) :
    ∀ (cache : List Buf) (i : Nat) (b : Buf), cache[i]? = some b →
      b.refcnt = 0 →
      (∀ (j : Nat) (c : Buf), i < j → cache[j]? = some c → c.refcnt ≠ 0) →
      bgetRecycle cache dev blk =
        some (i, cache.set i { dev := dev, blockno := blk, valid := false, refcnt := 1 }) := by
  intro cache
  induction cache with
  | nil => intro i b hb; simp at hb
  | cons hd rest ih =>
    intro i b hb hrc hj
    cases i with
    | zero =>
      simp at hb
      subst hb
      have hnone : bgetRecycle rest dev blk = none := by
        apply bgetRecycle_none
        intro c hc
        obtain ⟨j, hjlt, hjc⟩ := List.getElem_of_mem hc
        exact hj (j + 1) c (by omega) (by simpa using hjc ▸ List.getElem?_eq_getElem hjlt)
      simp [bgetRecycle, hnone, hrc]
    | succ k =>
      have hrec := ih k b (by simpa using hb) hrc
        (fun j c hjk hc => hj (j + 1) c (by omega) (by simpa using hc))
      simp [bgetRecycle, hrec, List.set_cons_succ]

/-- Claim C2: bget(dev, blk) either (a) finds the first cached slot carrying
(dev, blk) in recency order and returns it with its refcount incremented and
every other slot unchanged, or (b) if no slot matches, rebinds the slot with
`refcnt == 0` that is closest to the least-recently-released end
(`valid = 0`, `refcnt = 1`, identity rebound, all other slots unchanged), or
(c) panics (`none`) when no slot matches and every slot has a positive
refcount. -/
theorem bget_spec (cache : List Buf) (dev blk : Nat) :
    (∀ (i : Nat) (b : Buf), cache[i]? = some b → b.dev = dev → b.blockno = blk →
      (∀ (j : Nat) (c : Buf), j < i → cache[j]? = some c → ¬(c.dev = dev ∧ c.blockno = blk)) →
      bget cache dev blk = some (i, cache.set i { b with refcnt := b.refcnt + 1 })) ∧
    ((∀ b ∈ cache, ¬(b.dev = dev ∧ b.blockno = blk)) →
      ∀ (i : Nat) (b : Buf), cache[i]? = some b → b.refcnt = 0 →
      (∀ (j : Nat) (c : Buf), i < j → cache[j]? = some c → c.refcnt ≠ 0) →
      bget cache dev blk =
        some (i, cache.set i { dev := dev, blockno := blk, valid := false, refcnt := 1 })) ∧
    ((∀ b ∈ cache, ¬(b.dev = dev ∧ b.blockno = blk)) → (∀ b ∈ cache, b.refcnt ≠ 0) →
      bget cache dev blk = none) := by
  refine ⟨?_, ?_, ?_⟩
  · intro i b hb h1 h2 hj
    unfold bget
    rw [bgetCached_found dev blk cache i b hb h1 h2 hj]
  · intro hnomatch i b hb hrc hj
    unfold bget
    rw [bgetCached_none dev blk cache hnomatch,
        bgetRecycle_found dev blk cache i b hb hrc hj]
  · intro hnomatch hbusy
    unfold bget
    rw [bgetCached_none dev blk cache hnomatch, bgetRecycle_none dev blk cache hbusy]

/-- Witness for C2: a concrete two-slot cache where the request hits the
second slot in recency order. -/
theorem bget_spec_witness :
    bget [⟨1, 10, true, 3⟩, ⟨1, 20, true, 2⟩] 1 20 =
      some (1, [⟨1, 10, true, 3⟩, ⟨1, 20, true, 3⟩]) := by
  have h := (bget_spec [⟨1, 10, true, 3⟩, ⟨1, 20, true, 2⟩] 1 20).1
    1 ⟨1, 20, true, 2⟩ (by simp) rfl rfl
    (by intro j c hj hc
        interval_cases j
        simp at hc
        subst hc
        decide)
  simpa using h

/-! ### Console line discipline (src/kernel/console.c, lines 110-245) -/

/-- INPUT_BUF_SIZE from console.c. -/
def INPUT_BUF_SIZE : Nat := 128

/-- The console input state `cons`: the circular input buffer and the three
unwrapped indices (read, write, edit); indices grow without bound and are
reduced mod INPUT_BUF_SIZE only on access, as in the source. -/
structure Cons where
  buf : Nat → Nat
  r : Nat
  w : Nat
  e : Nat

/-- Kill-line loop of consoleintr (the C('U') case), driven by the fuel
`e - w` which bounds the number of erasable characters: while the edit
index has not reached the write index and the previous character is not a
newline, back up the edit index. -/
def killLineAux : Cons → Nat → Cons
  | st, 0 => st
  | st, fuel + 1 =>
    if st.e ≠ st.w ∧ st.buf ((st.e - 1) % INPUT_BUF_SIZE) ≠ 10 then
      killLineAux { st with e := st.e - 1 } fuel
    else st

/-- consoleintr from console.c for one delivered character `c`:
C('P') dumps processes (no input-state change), C('U') kills the line,
C('H') and delete erase one character, and any other non-zero character is
appended when the buffer is not full ('\r' folded to '\n'); on newline,
end-of-file or a full buffer the write index is published (`w = e`) and the
readers on `&cons.r` are woken.  Echoing via consputc has no input-state
effect and is omitted. -/
def consoleintr (st : Cons) (c : Nat) : Cons :=
  if c = 16 then st
  else if c = 21 then killLineAux st (st.e - st.w)
  else if c = 8 ∨ c = 127 then
    (if st.e ≠ st.w then { st with e := st.e - 1 } else st)
  else
    if c ≠ 0 ∧ st.e - st.r < INPUT_BUF_SIZE then
      let c1 := if c = 13 then 10 else c
      let st1 : Cons := { st with
        buf := fun i => if i = st.e % INPUT_BUF_SIZE then c1 else st.buf i,
        e := st.e + 1 }
      if c1 = 10 ∨ c1 = 4 ∨ st1.e - st1.r = INPUT_BUF_SIZE then { st1 with w := st1.e }
      else st1
    else st

/-- Outcome of consoleread: return -1 after observing the kill flag while
waiting, suspend on `sleep(&cons.r, &cons.lock)` because no complete line
is available, or return normally with the copied bytes. -/
inductive CReadRes where
  | retKilled : Cons → CReadRes
  | sleeps : Cons → CReadRes
  | done : List Nat → Cons → CReadRes

/-- The while(n > 0) loop of consoleread; `target` is the original byte
count.  Each iteration: if no input is available, return -1 when the caller
is killed, otherwise sleep; else consume one byte; C('D') is pushed back
when some bytes were already read and always stops the read; every other
byte is copied out (copyout to a kernel destination cannot fail) and a
newline stops the read after being copied. -/
def consolereadLoop (killed : Bool) (target : Nat) : Cons → Nat → CReadRes
  | st, 0 => .done [] st
  | st, n + 1 =>
    if st.r = st.w then
      (if killed then .retKilled st else .sleeps st)
    else
      let c := st.buf (st.r % INPUT_BUF_SIZE)
      let st1 : Cons := { st with r := st.r + 1 }
      if c = 4 then
        (if n + 1 < target then .done [] { st1 with r := st1.r - 1 } else .done [] st1)
      else if c = 10 then .done [c] st1
      else
        match consolereadLoop killed target st1 n with
        | .retKilled s => .retKilled s
        | .sleeps s => .sleeps s
        | .done bs s => .done (c :: bs) s

/-- consoleread from console.c for a request of `n` bytes by a process whose
kill flag is `killed`. -/
def consoleread (st : Cons) (killed : Bool) (n : Nat) : CReadRes :=
  consolereadLoop killed n st n

/-- Bytes returned by a normally completed consoleread. -/
def creadBytes : CReadRes → Option (List Nat)
  | .done bs _ => some bs
  | _ => none

/-- The initial (empty) console input state. -/
def consInit : Cons := ⟨fun _ => 0, 0, 0, 0⟩

/-- Claim C7: delivering the characters of "hi\b\bworld\n" one at a time to
consoleintr and then reading 32 bytes returns exactly the 6 bytes
"world\n": the two backspaces erase 'h' and 'i' and the read stops at the
newline. -/
theorem console_line_discipline :
    creadBytes (consoleread
      (List.foldl consoleintr consInit [104, 105, 8, 8, 119, 111, 114, 108, 100, 10])
      false 32) = some [119, 111, 114, 108, 100, 10] := by
  decide

/-- Claim C9: when no complete input line is available (`r == w`) and the
calling process's kill flag is set, consoleread stops waiting and returns -1
(without returning any bytes). -/
theorem consoleread_killed_returns (st : Cons) (n : Nat) (h : 0 < n) (hw : st.r = st.w) :
    consoleread st true n = .retKilled st := by
  cases n with
  | zero => omega
  | succ m => simp [consoleread, consolereadLoop, hw]

/-- Witness for C9 at the empty console state. -/
theorem consoleread_killed_returns_witness :
    consoleread consInit true 5 = .retKilled consInit :=
  consoleread_killed_returns consInit 5 (by omega) rfl

/-! ### Path resolution (src/kernel/fs.c, lines 1026-1175) -/

/-- DIRSIZ: maximum directory-entry name length. -/
def DIRSIZ : Nat := 14

/-- ROOTINO: inode number of the root directory. -/
def ROOTINO : Nat := 1

/-- The directory world that namex walks: which inodes are directories and
what dirlookup finds under a name in a directory.  Inodes are identified by
their inode number; iget / iput reference counting and the per-inode locks
taken and released around each step are outside the sequential model. -/
structure World where
  isDir : Nat → Bool
  lookup : Nat → List Nat → Option Nat

/-- skipelem from fs.c: skip leading slashes; if the path is exhausted
return none; otherwise return the next path element (truncated to DIRSIZ
characters) together with the remaining path after the element and any
slashes that follow it.  Characters are bytes; 47 is the slash. -/
def skipelem (path : List Nat) : Option (List Nat × List Nat) :=
  let p := path.dropWhile (fun ch => ch == 47)
  if p.isEmpty then none
  else
    some ((p.takeWhile (fun ch => ch != 47)).take DIRSIZ,
          (p.dropWhile (fun ch => ch != 47)).dropWhile (fun ch => ch == 47))

theorem dropWhile_length_le (p : Nat → Bool) :
    ∀ l : List Nat, (l.dropWhile p).length ≤ l.length := by
  intro l
  induction l with
  | nil => simp
  | cons a t ih =>
    by_cases h : p a
    · rw [List.dropWhile_cons_of_pos h]
      simp only [List.length_cons]
      omega
    · rw [List.dropWhile_cons_of_neg (by simp [h])]

theorem skipelem_decreases (path name rest : List Nat)
    (h : skipelem path = some (name, rest)) : rest.length < path.length := by
  induction path with
  | nil => simp [skipelem] at h
  | cons ch t ih =>
    by_cases hch : ch = 47
    · have : skipelem (ch :: t) = skipelem t := by
        simp [skipelem, hch]
      rw [this] at h
      exact Nat.lt_trans (ih h) (by simp)
    · have hdw : (ch :: t).dropWhile (fun c => c == 47) = ch :: t := by
        simp [List.dropWhile_cons, hch]
      simp only [skipelem, hdw, List.isEmpty_cons, if_false, Option.some.injEq,
        Prod.mk.injEq, Bool.false_eq_true] at h
      obtain ⟨-, hrest⟩ := h
      rw [← hrest]
      have h1 : ((ch :: t).dropWhile (fun c => c != 47)).length ≤ t.length := by
        rw [List.dropWhile_cons, if_pos (by simp [hch])]
        exact dropWhile_length_le _ t
      calc (((ch :: t).dropWhile (fun c => c != 47)).dropWhile (fun c => c == 47)).length
          ≤ ((ch :: t).dropWhile (fun c => c != 47)).length :=
            dropWhile_length_le _ _
        _ ≤ t.length := h1
        _ < (ch :: t).length := by simp

/-- The component loop of namex from fs.c.  Per step: take the next path
element; require the current inode to be a directory; if the parent is
wanted and this was the last element, stop one level early; otherwise look
the element up and continue from the found inode.  A failed type check or
lookup returns a null inode (none). -/
def namexLoop (w : World) (wantParent : Bool) (ip : Nat) (path : List Nat) : Option Nat :=
  match h : skipelem path with
  | none => if wantParent then none else some ip
  | some (name, rest) =>
    if w.isDir ip = false then none
    else if wantParent ∧ rest = [] then some ip
    else
      match w.lookup ip name with
      | none => none
      | some next => namexLoop w wantParent next rest
termination_by path.length
decreasing_by exact skipelem_decreases path name rest h

/-- namex starting point: the root inode for an absolute path, the calling
process's current directory otherwise. -/
def namex (w : World) (cwd : Nat) (wantParent : Bool) (path : List Nat) : Option Nat :=
  namexLoop w wantParent (if path.head? = some 47 then ROOTINO else cwd) path

/-- namei from fs.c. -/
def namei (w : World) (cwd : Nat) (path : List Nat) : Option Nat :=
  namex w cwd false path

/-- nameiparent from fs.c. -/
def nameiparent (w : World) (cwd : Nat) (path : List Nat) : Option Nat :=
  namex w cwd true path

/-- Claim C8: for every directory world and every calling process (current
directory), resolving the slash path as a whole (namei) yields the
root inode, while asking for its parent (nameiparent) gives a null inode. -/
theorem root_path_resolution (w : World) (cwd : Nat) :
    namei w cwd [47] = some ROOTINO ∧ nameiparent w cwd [47] = none := by
  have hskip : skipelem [47] = none := by
    simp [skipelem]
  refine ⟨?_, ?_⟩
  · unfold namei namex
    rw [namexLoop]
    split
    · rfl
    · rename_i name rest heq
      rw [hskip] at heq
      simp at heq
  · unfold nameiparent namex
    rw [namexLoop]
    split
    · rfl
    · rename_i name rest heq
      rw [hskip] at heq
      simp at heq

/-! ### Inode data path: balloc, bmap, readi, writei (src/kernel/fs.c)

The state visible to these functions: the locked inode's cached fields
(`size` and the `addrs` array of NDIRECT direct pointers plus one indirect
pointer), the disk blocks reached through the buffer cache, and the
free-block bitmap that balloc scans.  bread/brelse and log_write are
modelled as direct access to the disk state: the buffer cache and the log
are transparent at this level.  A disk block is a function from cell index
to value; data blocks are indexed by byte, the indirect block by 32-bit
word, matching the two ways fs.c casts `bp->data`.  The bitmap is modelled
one bit per block (the packing of bits into bitmap blocks is a layout
detail).  Numeric constants BSIZE, NDIRECT come from fs.h, which is not
among the provided sources; BSIZE = 1024 is fixed by bio.c's comments and
NDIRECT = 12 is the standard layout, with NINDIRECT = BSIZE / 4 and the
spec's maximum file size MAXFILE = NDIRECT + NINDIRECT blocks.  All
theorems below hold for any positive values of these constants. -/

/-- Block size in bytes. -/
def BSIZE : Nat := 1024

/-- Number of direct block pointers in an inode. -/
def NDIRECT : Nat := 12

/-- Number of block pointers in the indirect block (BSIZE / sizeof(uint)). -/
def NINDIRECT : Nat := BSIZE / 4

/-- Maximum file size in blocks. -/
def MAXFILE : Nat := NDIRECT + NINDIRECT

/-- The file-system state seen by readi / writei on one locked inode:
the inode's size and block-pointer array, the disk contents, and the
free-block bitmap with its size `sb.size`. -/
structure FS where
  size : Nat
  addrs : Nat → Nat
  disk : Nat → Nat → Nat
  bitmap : Nat → Bool
  sbsize : Nat

/-- The bitmap scan of balloc: the first block number below `sb.size` whose
bitmap bit is clear. -/
def ballocFind (st : FS) : Option Nat :=
  (List.range st.sbsize).find? (fun b => ! st.bitmap b)

/-- Marking a block allocated: set its bitmap bit and zero its contents
(balloc calls bzero on the block it returns). -/
def markAlloc (st : FS) (b : Nat) : FS :=
  { st with bitmap := fun x => if x = b then true else st.bitmap x,
            disk := fun x => if x = b then (fun _ => 0) else st.disk x }

/-- balloc from fs.c: scan the bitmap for a free block, mark it in use,
zero it and return it; return 0 when the disk is full. -/
def balloc (st : FS) : Nat × FS :=
  match ballocFind st with
  | none => (0, st)
  | some b => (b, markAlloc st b)

/-- Update one slot of the inode's block-pointer array. -/
def setAddr (st : FS) (k a : Nat) : FS :=
  { st with addrs := fun i => if i = k then a else st.addrs i }

/-- Update one word of one disk block (the `a[bn] = addr; log_write(bp)` in
bmap's indirect case). -/
def setDiskWord (st : FS) (blk idx v : Nat) : FS :=
  { st with disk := fun b =>
      if b = blk then (fun i => if i = idx then v else st.disk blk i)
      else st.disk b }

/-- The indirect-entry half of bmap: read entry `bn1` of the indirect block
`ia`; if it is zero, allocate a block and record it there (balloc failure
returns address 0). -/
def bmapInd (st : FS) (ia bn1 : Nat) : Option (Nat × FS) :=
  if st.disk ia bn1 = 0 then
    match balloc st with
    | (0, st1) => some (0, st1)
    | (addr, st1) => some (addr, setDiskWord st1 ia bn1 addr)
  else some (st.disk ia bn1, st)

/-- bmap from fs.c: return the disk address of the inode's `bn`-th data
block, allocating the data block (and the indirect block) as needed.
Address 0 reports an out-of-space allocation failure; `none` is the
`panic("bmap: out of range")` for `bn` beyond MAXFILE. -/
def bmap (st : FS) (bn : Nat) : Option (Nat × FS) :=
  if bn < NDIRECT then
    (if st.addrs bn = 0 then
      match balloc st with
      | (0, st1) => some (0, st1)
      | (addr, st1) => some (addr, setAddr st1 bn addr)
    else some (st.addrs bn, st))
  else if bn - NDIRECT < NINDIRECT then
    (if st.addrs NDIRECT = 0 then
      match balloc st with
      | (0, st1) => some (0, st1)
      | (ia, st1) => bmapInd (setAddr st1 NDIRECT ia) ia (bn - NDIRECT)
    else bmapInd st (st.addrs NDIRECT) (bn - NDIRECT))
  else none

/-- The `either_copyin` + memmove of one writei chunk: copy `m` bytes of
`src` into block `addr` starting at byte offset `boff`.  The source is a
kernel address, so the copy cannot fault. -/
def writeBytes (st : FS) (addr boff : Nat) (src : Nat → Nat) (m : Nat) : FS :=
  { st with disk := fun b =>
      if b = addr then
        (fun i => if boff ≤ i ∧ i < boff + m then src (i - boff) else st.disk addr i)
      else st.disk b }

/-- The `for(tot=0; tot<n; ...)` loop of writei, in terms of the remaining
byte count `n`: map the block, stop returning the bytes written so far if
allocation failed (address 0), otherwise copy
`m = min(n - tot, BSIZE - off%BSIZE)` bytes and continue.  `none` is the
unreachable bmap panic. -/
def writeiLoop (st : FS) (src : Nat → Nat) (off n : Nat) : Option (Nat × FS) :=
  if h : n = 0 then some (0, st)
  else
    match bmap st (off / BSIZE) with
    | none => none
    | some (0, st1) => some (0, st1)
    | some (addr, st1) =>
      let m := min n (BSIZE - off % BSIZE)
      let st2 := writeBytes st1 addr (off % BSIZE) src m
      match writeiLoop st2 (fun i => src (i + m)) (off + m) (n - m) with
      | none => none
      | some (tot, st3) => some (m + tot, st3)
termination_by n
decreasing_by
  have hb : off % BSIZE < BSIZE := Nat.mod_lt _ (by norm_num [BSIZE])
  omega

/-- writei from fs.c: reject writes starting beyond the file size, unsigned
wraparound of `off + n`, and writes past the maximum file size with -1; run
the copy loop; extend the size when the final offset passed it (the
trailing iupdate persists the inode and is the identity here). -/
def writei (st : FS) (src : Nat → Nat) (off n : Nat) : Option (Int × FS) :=
  if off > st.size ∨ (off + n) % 2 ^ 32 < off then some (-1, st)
  else if off + n > MAXFILE * BSIZE then some (-1, st)
  else
    match writeiLoop st src off n with
    | none => none
    | some (tot, st1) =>
      some ((tot : Int), if off + tot > st1.size then { st1 with size := off + tot } else st1)

/-- The read loop of readi, accumulating the bytes copied out; the
destination is a kernel address, so either_copyout cannot fail. -/
def readiLoop (st : FS) (off n : Nat) : Option (List Nat × FS) :=
  if h : n = 0 then some ([], st)
  else
    match bmap st (off / BSIZE) with
    | none => none
    | some (0, st1) => some ([], st1)
    | some (addr, st1) =>
      let m := min n (BSIZE - off % BSIZE)
      match readiLoop st1 (off + m) (n - m) with
      | none => none
      | some (rest, st2) =>
        some ((List.range m).map (fun i => st1.disk addr (off % BSIZE + i)) ++ rest, st2)
termination_by n
decreasing_by
  have hb : off % BSIZE < BSIZE := Nat.mod_lt _ (by norm_num [BSIZE])
  omega

/-- readi from fs.c: return zero bytes when the request starts beyond the
file size or `off + n` wraps; clamp the count to the file size; run the
read loop. -/
def readi (st : FS) (off n : Nat) : Option (List Nat × FS) :=
  if off > st.size ∨ (off + n) % 2 ^ 32 < off then some ([], st)
  else
    readiLoop st off (if off + n > st.size then st.size - off else n)

/-- The address of the `bn`-th data block recorded in the inode: a direct
pointer, or an entry of the indirect block, or 0 when nothing is mapped. -/
def addrOf (st : FS) (bn : Nat) : Nat :=
  if bn < NDIRECT then st.addrs bn
  else if st.addrs NDIRECT = 0 then 0
  else st.disk (st.addrs NDIRECT) (bn - NDIRECT)

/-- Well-formedness of the file-system state, as maintained by the inode
layer: distinct data blocks live at distinct disk addresses, no data block
aliases the indirect block, and blocks still free in the bitmap are neither
block 0 nor in use by this inode. -/
structure WF (st : FS) : Prop where
  inj : ∀ bn1 bn2, bn1 < MAXFILE → bn2 < MAXFILE → bn1 ≠ bn2 →
    addrOf st bn1 ≠ 0 → addrOf st bn2 ≠ 0 → addrOf st bn1 ≠ addrOf st bn2
  indNotData : ∀ bn, bn < MAXFILE → addrOf st bn ≠ 0 → addrOf st bn ≠ st.addrs NDIRECT
  freeNotZero : ∀ b, b < st.sbsize → st.bitmap b = false → b ≠ 0
  freeNotData : ∀ b, b < st.sbsize → st.bitmap b = false →
    ∀ bn, bn < MAXFILE → addrOf st bn ≠ b
  freeNotInd : ∀ b, b < st.sbsize → st.bitmap b = false → st.addrs NDIRECT ≠ b

/-! ### Basic facts about the allocator and the state updates -/

theorem NDIRECT_lt_MAXFILE : NDIRECT < MAXFILE := by norm_num [NDIRECT, MAXFILE, NINDIRECT, BSIZE]

theorem indirect_lt {bn : Nat} (h : bn < MAXFILE) (h2 : ¬ bn < NDIRECT) :
    bn - NDIRECT < NINDIRECT := by
  have he : MAXFILE = NDIRECT + NINDIRECT := rfl
  omega

theorem ballocFind_some {st : FS} {b : Nat} (hb : ballocFind st = some b) :
    b < st.sbsize ∧ st.bitmap b = false := by
  unfold ballocFind at hb
  have hmem := List.mem_of_find?_eq_some hb
  have hp := List.find?_some hb
  simp at hmem hp
  exact ⟨hmem, hp⟩

theorem balloc_of_none {st : FS} (h : ballocFind st = none) : balloc st = (0, st) := by
  simp [balloc, h]

theorem balloc_of_some {st : FS} {b : Nat} (h : ballocFind st = some b) :
    balloc st = (b, markAlloc st b) := by
  simp [balloc, h]

theorem markAlloc_addrs (st : FS) (b : Nat) : (markAlloc st b).addrs = st.addrs := rfl

theorem markAlloc_size (st : FS) (b : Nat) : (markAlloc st b).size = st.size := rfl

theorem markAlloc_sbsize (st : FS) (b : Nat) : (markAlloc st b).sbsize = st.sbsize := rfl

theorem markAlloc_disk_ne (st : FS) {b x : Nat} (h : x ≠ b) :
    (markAlloc st b).disk x = st.disk x := by simp [markAlloc, h]

theorem markAlloc_disk_self (st : FS) (b : Nat) (i : Nat) :
    (markAlloc st b).disk b i = 0 := by simp [markAlloc]

theorem markAlloc_bitmap_false {st : FS} {b x : Nat}
    (h : (markAlloc st b).bitmap x = false) : x ≠ b ∧ st.bitmap x = false := by
  by_cases hxb : x = b
  · subst hxb; simp [markAlloc] at h
  · exact ⟨hxb, by simpa [markAlloc, hxb] using h⟩

theorem setAddr_addrs (st : FS) (k a i : Nat) :
    (setAddr st k a).addrs i = if i = k then a else st.addrs i := rfl

theorem setAddr_disk (st : FS) (k a : Nat) : (setAddr st k a).disk = st.disk := rfl

theorem setAddr_size (st : FS) (k a : Nat) : (setAddr st k a).size = st.size := rfl

theorem setAddr_sbsize (st : FS) (k a : Nat) : (setAddr st k a).sbsize = st.sbsize := rfl

theorem setAddr_bitmap (st : FS) (k a : Nat) : (setAddr st k a).bitmap = st.bitmap := rfl

theorem setDiskWord_addrs (st : FS) (blk idx v : Nat) :
    (setDiskWord st blk idx v).addrs = st.addrs := rfl

theorem setDiskWord_size (st : FS) (blk idx v : Nat) :
    (setDiskWord st blk idx v).size = st.size := rfl

theorem setDiskWord_sbsize (st : FS) (blk idx v : Nat) :
    (setDiskWord st blk idx v).sbsize = st.sbsize := rfl

theorem setDiskWord_bitmap (st : FS) (blk idx v : Nat) :
    (setDiskWord st blk idx v).bitmap = st.bitmap := rfl

theorem setDiskWord_disk_ne (st : FS) {blk x : Nat} (idx v : Nat) (h : x ≠ blk) :
    (setDiskWord st blk idx v).disk x = st.disk x := by simp [setDiskWord, h]

theorem setDiskWord_disk_self (st : FS) (blk idx v i : Nat) :
    (setDiskWord st blk idx v).disk blk i = if i = idx then v else st.disk blk i := by
  simp [setDiskWord]

theorem fresh_facts {st : FS} (hwf : WF st) {b : Nat} (h : ballocFind st = some b) :
    b ≠ 0 ∧ st.addrs NDIRECT ≠ b ∧ (∀ bn, bn < MAXFILE → addrOf st bn ≠ b) := by
  obtain ⟨hlt, hfree⟩ := ballocFind_some h
  exact ⟨hwf.freeNotZero b hlt hfree, hwf.freeNotInd b hlt hfree,
    hwf.freeNotData b hlt hfree⟩

theorem addrOf_markAlloc {st : FS} (hwf : WF st) {b : Nat} (h : ballocFind st = some b) :
    ∀ bn, addrOf (markAlloc st b) bn = addrOf st bn := by
  intro bn
  obtain ⟨-, hind, -⟩ := fresh_facts hwf h
  unfold addrOf
  rw [markAlloc_addrs]
  by_cases h1 : bn < NDIRECT
  · simp [h1]
  · simp only [h1, if_false]
    by_cases h2 : st.addrs NDIRECT = 0
    · simp [h2]
    · simp only [h2, if_false]
      rw [markAlloc_disk_ne st hind]

theorem WF_markAlloc {st : FS} (hwf : WF st) {b : Nat} (h : ballocFind st = some b) :
    WF (markAlloc st b) := by
  have haddr := addrOf_markAlloc hwf h
  constructor
  · intro bn1 bn2 h1 h2 hne ha1 ha2
    rw [haddr bn1] at ha1 ⊢
    rw [haddr bn2] at ha2 ⊢
    exact hwf.inj bn1 bn2 h1 h2 hne ha1 ha2
  · intro bn h1 ha
    rw [haddr bn] at ha ⊢
    rw [markAlloc_addrs]
    exact hwf.indNotData bn h1 ha
  · intro x hx hbm
    rw [markAlloc_sbsize] at hx
    exact hwf.freeNotZero x hx (markAlloc_bitmap_false hbm).2
  · intro x hx hbm bn h1
    rw [markAlloc_sbsize] at hx
    rw [haddr bn]
    exact hwf.freeNotData x hx (markAlloc_bitmap_false hbm).2 bn h1
  · intro x hx hbm
    rw [markAlloc_sbsize] at hx
    rw [markAlloc_addrs]
    exact hwf.freeNotInd x hx (markAlloc_bitmap_false hbm).2

/-- Combined facts delivered by a successful bmap: the mapped address is
recorded for `bn`, every other mapping is untouched, data blocks mapped
before keep their contents, a freshly allocated block is zeroed, and
well-formedness is preserved. -/
structure BmapOk (st : FS) (bn addr : Nat) (st1 : FS) : Prop where
  wf : WF st1
  size_eq : st1.size = st.size
  sbsize_eq : st1.sbsize = st.sbsize
  here : addrOf st1 bn = addr
  nz : addr ≠ 0
  other : ∀ bn2, bn2 < MAXFILE → bn2 ≠ bn → addrOf st1 bn2 = addrOf st bn2
  oldPres : ∀ bn2, bn2 < MAXFILE → addrOf st bn2 ≠ 0 →
    ∀ i, st1.disk (addrOf st bn2) i = st.disk (addrOf st bn2) i
  freshZero : addrOf st bn = 0 → ∀ i, st1.disk addr i = 0
  cached : addrOf st bn ≠ 0 → addr = addrOf st bn

theorem BmapOk_refl {st : FS} (hwf : WF st) {bn : Nat} (h : addrOf st bn ≠ 0) :
    BmapOk st bn (addrOf st bn) st :=
  ⟨hwf, rfl, rfl, rfl, h, fun _ _ _ => rfl, fun _ _ _ _ => rfl, fun h0 => absurd h0 h,
    fun _ => rfl⟩

theorem WF_step {st st1 : FS} (hwf : WF st) {bn0 b : Nat}
    (hnz : b ≠ 0)
    (hfresh : ∀ bn, bn < MAXFILE → addrOf st bn ≠ b)
    (hind : st1.addrs NDIRECT = st.addrs NDIRECT)
    (hbne : b ≠ st.addrs NDIRECT)
    (haddr : ∀ bn2, bn2 < MAXFILE → addrOf st1 bn2 = if bn2 = bn0 then b else addrOf st bn2)
    (hsb : st1.sbsize = st.sbsize)
    (hbm : ∀ x, x < st1.sbsize → st1.bitmap x = false → x ≠ b ∧ st.bitmap x = false) :
    WF st1 := by
  constructor
  · intro bn1 bn2 h1 h2 hne ha1 ha2
    rw [haddr bn1 h1] at ha1 ⊢
    rw [haddr bn2 h2] at ha2 ⊢
    by_cases e1 : bn1 = bn0 <;> by_cases e2 : bn2 = bn0
    · exact absurd (e1.trans e2.symm) hne
    · simp only [e1, if_true, e2, if_false] at ha2 ⊢
      exact fun he => hfresh bn2 h2 he.symm
    · simp only [e1, if_false, e2, if_true] at ha1 ⊢
      exact hfresh bn1 h1
    · simp only [e1, e2, if_false] at ha1 ha2 ⊢
      exact hwf.inj bn1 bn2 h1 h2 hne ha1 ha2
  · intro bn h1 ha
    rw [haddr bn h1] at ha ⊢
    rw [hind]
    by_cases e : bn = bn0
    · simp only [e, if_true]
      exact hbne
    · simp only [e, if_false] at ha ⊢
      exact hwf.indNotData bn h1 ha
  · intro x hx hbm2
    exact hwf.freeNotZero x (hsb ▸ hx) (hbm x hx hbm2).2
  · intro x hx hbm2 bn h1
    rw [haddr bn h1]
    obtain ⟨hxb, hxf⟩ := hbm x hx hbm2
    by_cases e : bn = bn0
    · simp only [e, if_true]
      exact fun he => hxb he.symm
    · simp only [e, if_false]
      exact hwf.freeNotData x (hsb ▸ hx) hxf bn h1
  · intro x hx hbm2
    rw [hind]
    exact hwf.freeNotInd x (hsb ▸ hx) (hbm x hx hbm2).2

theorem addrOf_setAddr_direct (st : FS) {k : Nat} (hk : k < NDIRECT) (a : Nat) :
    ∀ bn, addrOf (setAddr st k a) bn = if bn = k then a else addrOf st bn := by
  intro bn
  by_cases h1 : bn < NDIRECT
  · simp only [addrOf, setAddr_addrs, h1, if_true]
  · have hne : ¬ bn = k := by omega
    have hnd : ¬ (NDIRECT = k) := by omega
    simp only [addrOf, h1, if_false, setAddr_addrs, setAddr_disk, hnd, hne]

theorem addrOf_setDiskWord_ind (st : FS) {ia : Nat} (hia : st.addrs NDIRECT = ia)
    (hnz : ia ≠ 0) (bn1 v : Nat) :
    ∀ bn, addrOf (setDiskWord st ia bn1 v) bn =
      if bn = NDIRECT + bn1 then v else addrOf st bn := by
  intro bn
  unfold addrOf
  rw [setDiskWord_addrs, hia]
  by_cases h1 : bn < NDIRECT
  · have hne : ¬ bn = NDIRECT + bn1 := by omega
    simp only [h1, if_true, hne, if_false]
  · simp only [h1, if_false, if_neg hnz]
    rw [setDiskWord_disk_self]
    by_cases e : bn - NDIRECT = bn1
    · have he : bn = NDIRECT + bn1 := by omega
      simp only [e, if_true, he, if_pos rfl]
      simp
    · have he : ¬ bn = NDIRECT + bn1 := by omega
      simp only [e, if_false, he]

theorem bmapD_sound {st : FS} (hwf : WF st) {bn : Nat} (hbn : bn < NDIRECT)
    (h0 : st.addrs bn = 0)
    {b : Nat} (hfind : ballocFind st = some b) :
    BmapOk st bn b (setAddr (markAlloc st b) bn b) := by
  obtain ⟨hbnz, hbind, hbdata⟩ := fresh_facts hwf hfind
  have hma := addrOf_markAlloc hwf hfind
  have hset := addrOf_setAddr_direct (markAlloc st b) hbn b
  have haddr : ∀ bn2, addrOf (setAddr (markAlloc st b) bn b) bn2 =
      if bn2 = bn then b else addrOf st bn2 := by
    intro bn2; rw [hset bn2, hma bn2]
  have hind : (setAddr (markAlloc st b) bn b).addrs NDIRECT = st.addrs NDIRECT := by
    rw [setAddr_addrs, markAlloc_addrs, if_neg (by omega : ¬ NDIRECT = bn)]
  have hc0 : addrOf st bn = 0 := by
    unfold addrOf; simp [hbn, h0]
  refine ⟨?_, rfl, rfl, ?_, hbnz, ?_, ?_, ?_, fun hne => absurd hc0 hne⟩
  · exact WF_step hwf hbnz hbdata hind (fun he => hbind he.symm)
      (fun bn2 _ => haddr bn2) rfl
      (fun x hx hbm => markAlloc_bitmap_false hbm)
  · rw [haddr bn, if_pos rfl]
  · intro bn2 h2 hne
    rw [haddr bn2, if_neg hne]
  · intro bn2 h2 hnz2 i
    show (markAlloc st b).disk (addrOf st bn2) i = st.disk (addrOf st bn2) i
    rw [markAlloc_disk_ne st (hbdata bn2 h2)]
  · intro _ i
    exact markAlloc_disk_self st b i

theorem bmapInd_alloc_sound {st : FS} (hwf : WF st) {bn : Nat}
    (hbn : bn < MAXFILE) (hge : ¬ bn < NDIRECT)
    (hia : st.addrs NDIRECT ≠ 0)
    (hzero : st.disk (st.addrs NDIRECT) (bn - NDIRECT) = 0)
    {b : Nat} (hfind : ballocFind st = some b) :
    BmapOk st bn b (setDiskWord (markAlloc st b) (st.addrs NDIRECT) (bn - NDIRECT) b) := by
  obtain ⟨hbnz, hbind, hbdata⟩ := fresh_facts hwf hfind
  have hma := addrOf_markAlloc hwf hfind
  have hiam : (markAlloc st b).addrs NDIRECT = st.addrs NDIRECT := rfl
  have hset := addrOf_setDiskWord_ind (markAlloc st b) hiam hia (bn - NDIRECT) b
  have hbn' : NDIRECT + (bn - NDIRECT) = bn := by omega
  have haddr : ∀ bn2, addrOf (setDiskWord (markAlloc st b) (st.addrs NDIRECT)
      (bn - NDIRECT) b) bn2 = if bn2 = bn then b else addrOf st bn2 := by
    intro bn2
    rw [hset bn2, hma bn2, hbn']
  have hind : (setDiskWord (markAlloc st b) (st.addrs NDIRECT) (bn - NDIRECT) b).addrs
      NDIRECT = st.addrs NDIRECT := by
    rw [setDiskWord_addrs, markAlloc_addrs]
  have hc0 : addrOf st bn = 0 := by
    unfold addrOf; simp [hge, hia, hzero]
  refine ⟨?_, rfl, rfl, ?_, hbnz, ?_, ?_, ?_, fun hne => absurd hc0 hne⟩
  · exact WF_step hwf hbnz hbdata hind (fun he => hbind he.symm)
      (fun bn2 _ => haddr bn2) rfl
      (fun x hx hbm => markAlloc_bitmap_false hbm)
  · rw [haddr bn, if_pos rfl]
  · intro bn2 h2 hne
    rw [haddr bn2, if_neg hne]
  · intro bn2 h2 hnz2 i
    rw [setDiskWord_disk_ne _ _ _ (hwf.indNotData bn2 h2 hnz2),
      markAlloc_disk_ne st (hbdata bn2 h2)]
  · intro _ i
    rw [setDiskWord_disk_ne _ _ _ (fun he => hbind he.symm), markAlloc_disk_self]

theorem allocInd_facts {st : FS} (hwf : WF st) {ia : Nat}
    (hfind : ballocFind st = some ia) (h0 : st.addrs NDIRECT = 0) :
    WF (setAddr (markAlloc st ia) NDIRECT ia) ∧
    (∀ bn, addrOf (setAddr (markAlloc st ia) NDIRECT ia) bn = addrOf st bn) ∧
    (setAddr (markAlloc st ia) NDIRECT ia).addrs NDIRECT = ia ∧
    (∀ bn2, bn2 < MAXFILE → addrOf st bn2 ≠ 0 →
      ∀ i, (setAddr (markAlloc st ia) NDIRECT ia).disk (addrOf st bn2) i =
        st.disk (addrOf st bn2) i) := by
  obtain ⟨hianz, hiaind, hiadata⟩ := fresh_facts hwf hfind
  have hma := addrOf_markAlloc hwf hfind
  have hself : (setAddr (markAlloc st ia) NDIRECT ia).addrs NDIRECT = ia := by
    rw [setAddr_addrs, if_pos rfl]
  have haddr : ∀ bn, addrOf (setAddr (markAlloc st ia) NDIRECT ia) bn = addrOf st bn := by
    intro bn
    unfold addrOf
    by_cases h1 : bn < NDIRECT
    · simp only [h1, if_true]
      rw [setAddr_addrs, markAlloc_addrs, if_neg (by omega : ¬ bn = NDIRECT)]
    · simp only [h1, if_false]
      rw [hself, if_neg hianz, h0, if_pos rfl]
      show (markAlloc st ia).disk ia (bn - NDIRECT) = 0
      exact markAlloc_disk_self st ia _
  refine ⟨?_, haddr, hself, ?_⟩
  · constructor
    · intro bn1 bn2 h1 h2 hne ha1 ha2
      rw [haddr bn1] at ha1 ⊢
      rw [haddr bn2] at ha2 ⊢
      exact hwf.inj bn1 bn2 h1 h2 hne ha1 ha2
    · intro bn h1 ha
      rw [haddr bn] at ha ⊢
      rw [hself]
      exact hiadata bn h1
    · intro x hx hbm
      exact hwf.freeNotZero x hx (markAlloc_bitmap_false hbm).2
    · intro x hx hbm bn h1
      rw [haddr bn]
      exact hwf.freeNotData x hx (markAlloc_bitmap_false hbm).2 bn h1
    · intro x hx hbm
      rw [hself]
      exact fun he => (markAlloc_bitmap_false hbm).1 he.symm
  · intro bn2 h2 hnz2 i
    show (markAlloc st ia).disk (addrOf st bn2) i = st.disk (addrOf st bn2) i
    rw [markAlloc_disk_ne st (hiadata bn2 h2)]

theorem BmapOk_comp {st stA st1 : FS} {bn addr : Nat} (hbn : bn < MAXFILE)
    (hok : BmapOk stA bn addr st1)
    (haddr : ∀ bn2, addrOf stA bn2 = addrOf st bn2)
    (hsize : stA.size = st.size) (hsb : stA.sbsize = st.sbsize)
    (hdisk : ∀ bn2, bn2 < MAXFILE → addrOf st bn2 ≠ 0 →
      ∀ i, stA.disk (addrOf st bn2) i = st.disk (addrOf st bn2) i) :
    BmapOk st bn addr st1 := by
  refine ⟨hok.wf, hok.size_eq.trans hsize, hok.sbsize_eq.trans hsb,
    (hok.here).trans (by rfl), hok.nz, ?_, ?_, ?_, ?_⟩
  · intro bn2 h2 hne
    rw [hok.other bn2 h2 hne, haddr bn2]
  · intro bn2 h2 hnz2 i
    have h3 := hok.oldPres bn2 h2 (by rw [haddr bn2]; exact hnz2) i
    rw [haddr bn2] at h3
    rw [h3, hdisk bn2 h2 hnz2 i]
  · intro h0 i
    exact hok.freshZero (by rw [haddr bn]; exact h0) i
  · intro hne
    rw [hok.cached (by rw [haddr bn]; exact hne), haddr bn]

theorem bmap_cached {st : FS} {bn : Nat} (hbn : bn < MAXFILE) (h : addrOf st bn ≠ 0) :
    bmap st bn = some (addrOf st bn, st) := by
  unfold bmap
  by_cases h1 : bn < NDIRECT
  · have ha : addrOf st bn = st.addrs bn := by
      unfold addrOf; simp [h1]
    rw [ha] at h ⊢
    rw [if_pos h1, if_neg h]
  · have h2 := indirect_lt hbn h1
    have h3 : st.addrs NDIRECT ≠ 0 := by
      intro he
      apply h
      unfold addrOf
      simp [h1, he]
    have ha : addrOf st bn = st.disk (st.addrs NDIRECT) (bn - NDIRECT) := by
      unfold addrOf
      simp [h1, h3]
    rw [if_neg h1, if_pos h2, if_neg h3]
    unfold bmapInd
    rw [ha] at h ⊢
    rw [if_neg h]

theorem bmapInd_run {st : FS} (hwf : WF st) {bn addr : Nat} {st1 : FS}
    (hbn : bn < MAXFILE) (hge : ¬ bn < NDIRECT)
    (hia : st.addrs NDIRECT ≠ 0)
    (hzero : st.disk (st.addrs NDIRECT) (bn - NDIRECT) = 0)
    (hrun : bmapInd st (st.addrs NDIRECT) (bn - NDIRECT) = some (addr, st1))
    (hnz : addr ≠ 0) :
    BmapOk st bn addr st1 := by
  unfold bmapInd at hrun
  rw [if_pos hzero] at hrun
  cases hfind : ballocFind st with
  | none =>
    rw [balloc_of_none hfind] at hrun
    have h := Option.some.inj hrun
    exact absurd (congrArg Prod.fst h).symm hnz
  | some b =>
    rw [balloc_of_some hfind] at hrun
    obtain ⟨hbnz, -, -⟩ := fresh_facts hwf hfind
    cases b with
    | zero => exact absurd rfl hbnz
    | succ k =>
      have hrun' : some (k + 1,
          setDiskWord (markAlloc st (k + 1)) (st.addrs NDIRECT) (bn - NDIRECT) (k + 1)) =
          some (addr, st1) := hrun
      have h := Option.some.inj hrun'
      have ha : addr = k + 1 := (congrArg Prod.fst h).symm
      have hs : st1 = setDiskWord (markAlloc st (k + 1)) (st.addrs NDIRECT)
          (bn - NDIRECT) (k + 1) := (congrArg Prod.snd h).symm
      subst ha
      subst hs
      exact bmapInd_alloc_sound hwf hbn hge hia hzero hfind

theorem bmap_sound {st : FS} (hwf : WF st) {bn addr : Nat} {st1 : FS}
    (hbn : bn < MAXFILE)
    (hrun : bmap st bn = some (addr, st1)) (hnz : addr ≠ 0) :
    BmapOk st bn addr st1 := by
  rcases eq_or_ne (addrOf st bn) 0 with hc | hc
  · unfold bmap at hrun
    by_cases h1 : bn < NDIRECT
    · have h0 : st.addrs bn = 0 := by
        unfold addrOf at hc
        simpa [h1] using hc
      rw [if_pos h1, if_pos h0] at hrun
      cases hfind : ballocFind st with
      | none =>
        rw [balloc_of_none hfind] at hrun
        have h := Option.some.inj hrun
        exact absurd (congrArg Prod.fst h).symm hnz
      | some b =>
        rw [balloc_of_some hfind] at hrun
        obtain ⟨hbnz, -, -⟩ := fresh_facts hwf hfind
        cases b with
        | zero => exact absurd rfl hbnz
        | succ k =>
          have hrun' : some (k + 1, setAddr (markAlloc st (k + 1)) bn (k + 1)) =
              some (addr, st1) := hrun
          have h := Option.some.inj hrun'
          have ha : addr = k + 1 := (congrArg Prod.fst h).symm
          have hs : st1 = setAddr (markAlloc st (k + 1)) bn (k + 1) :=
            (congrArg Prod.snd h).symm
          subst ha
          subst hs
          exact bmapD_sound hwf h1 h0 hfind
    · have h2 := indirect_lt hbn h1
      rw [if_neg h1, if_pos h2] at hrun
      by_cases hia : st.addrs NDIRECT = 0
      · rw [if_pos hia] at hrun
        cases hfind : ballocFind st with
        | none =>
          rw [balloc_of_none hfind] at hrun
          have h := Option.some.inj hrun
          exact absurd (congrArg Prod.fst h).symm hnz
        | some ia0 =>
          rw [balloc_of_some hfind] at hrun
          obtain ⟨hianz, -, -⟩ := fresh_facts hwf hfind
          cases ia0 with
          | zero => exact absurd rfl hianz
          | succ k =>
            have hrun' : bmapInd (setAddr (markAlloc st (k + 1)) NDIRECT (k + 1))
                (k + 1) (bn - NDIRECT) = some (addr, st1) := hrun
            obtain ⟨hwfA, haddrA, hselfA, hdiskA⟩ := allocInd_facts hwf hfind hia
            rw [← hselfA] at hrun'
            have hzeroA : (setAddr (markAlloc st (k + 1)) NDIRECT (k + 1)).disk
                ((setAddr (markAlloc st (k + 1)) NDIRECT (k + 1)).addrs NDIRECT)
                (bn - NDIRECT) = 0 := by
              rw [hselfA]
              exact markAlloc_disk_self st (k + 1) _
            have hiaA : (setAddr (markAlloc st (k + 1)) NDIRECT (k + 1)).addrs
                NDIRECT ≠ 0 := by
              rw [hselfA]; omega
            have hok := bmapInd_run hwfA hbn h1 hiaA hzeroA hrun' hnz
            exact BmapOk_comp hbn hok haddrA rfl rfl hdiskA
      · rw [if_neg hia] at hrun
        have hzero : st.disk (st.addrs NDIRECT) (bn - NDIRECT) = 0 := by
          unfold addrOf at hc
          simpa [h1, hia] using hc
        exact bmapInd_run hwf hbn h1 hia hzero hrun hnz
  · rw [bmap_cached hbn hc] at hrun
    have h := Option.some.inj hrun
    have ha : addr = addrOf st bn := (congrArg Prod.fst h).symm
    have hs : st1 = st := (congrArg Prod.snd h).symm
    subst hs
    rw [ha]
    exact BmapOk_refl hwf hc

theorem bmapInd_progress (st : FS) (ia bn1 : Nat) :
    ∃ r, bmapInd st ia bn1 = some r := by
  unfold bmapInd
  by_cases h : st.disk ia bn1 = 0
  · rw [if_pos h]
    rcases hb : balloc st with ⟨a, s⟩
    cases a with
    | zero => exact ⟨_, rfl⟩
    | succ k => exact ⟨_, rfl⟩
  · rw [if_neg h]
    exact ⟨_, rfl⟩

theorem bmap_progress (st : FS) {bn : Nat} (hbn : bn < MAXFILE) :
    ∃ r, bmap st bn = some r := by
  unfold bmap
  by_cases h1 : bn < NDIRECT
  · rw [if_pos h1]
    by_cases h0 : st.addrs bn = 0
    · rw [if_pos h0]
      rcases hb : balloc st with ⟨a, s⟩
      cases a with
      | zero => exact ⟨_, rfl⟩
      | succ k => exact ⟨_, rfl⟩
    · rw [if_neg h0]
      exact ⟨_, rfl⟩
  · have h2 := indirect_lt hbn h1
    rw [if_neg h1, if_pos h2]
    by_cases hia : st.addrs NDIRECT = 0
    · rw [if_pos hia]
      rcases hb : balloc st with ⟨a, s⟩
      cases a with
      | zero => exact ⟨_, rfl⟩
      | succ k => exact bmapInd_progress _ _ _
    · rw [if_neg hia]
      exact bmapInd_progress _ _ _

theorem writeBytes_addrs (st : FS) (addr boff : Nat) (src : Nat → Nat) (m : Nat) :
    (writeBytes st addr boff src m).addrs = st.addrs := rfl

theorem writeBytes_size (st : FS) (addr boff : Nat) (src : Nat → Nat) (m : Nat) :
    (writeBytes st addr boff src m).size = st.size := rfl

theorem writeBytes_sbsize (st : FS) (addr boff : Nat) (src : Nat → Nat) (m : Nat) :
    (writeBytes st addr boff src m).sbsize = st.sbsize := rfl

theorem writeBytes_bitmap (st : FS) (addr boff : Nat) (src : Nat → Nat) (m : Nat) :
    (writeBytes st addr boff src m).bitmap = st.bitmap := rfl

theorem writeBytes_disk_ne (st : FS) {addr x : Nat} (boff : Nat) (src : Nat → Nat)
    (m : Nat) (h : x ≠ addr) :
    (writeBytes st addr boff src m).disk x = st.disk x := by
  simp [writeBytes, h]

theorem writeBytes_disk_in (st : FS) (addr boff : Nat) (src : Nat → Nat) (m : Nat)
    {i : Nat} (h1 : boff ≤ i) (h2 : i < boff + m) :
    (writeBytes st addr boff src m).disk addr i = src (i - boff) := by
  simp [writeBytes, h1, h2]

theorem writeBytes_disk_out (st : FS) (addr boff : Nat) (src : Nat → Nat) (m : Nat)
    {i : Nat} (h : ¬(boff ≤ i ∧ i < boff + m)) :
    (writeBytes st addr boff src m).disk addr i = st.disk addr i := by
  simp only [writeBytes]
  simp [h]

theorem addrOf_writeBytes {st : FS} {addr : Nat} (h : addr ≠ st.addrs NDIRECT)
    (boff : Nat) (src : Nat → Nat) (m : Nat) :
    ∀ bn, addrOf (writeBytes st addr boff src m) bn = addrOf st bn := by
  intro bn
  unfold addrOf
  rw [writeBytes_addrs]
  by_cases h1 : bn < NDIRECT
  · simp [h1]
  · simp only [h1, if_false]
    by_cases h2 : st.addrs NDIRECT = 0
    · simp [h2]
    · simp only [h2, if_false]
      rw [writeBytes_disk_ne st boff src m (fun he => h he.symm)]

theorem WF_of_addrOf_eq {st st1 : FS} (hwf : WF st)
    (haddr : ∀ bn, addrOf st1 bn = addrOf st bn)
    (hind : st1.addrs NDIRECT = st.addrs NDIRECT)
    (hbm : st1.bitmap = st.bitmap) (hsb : st1.sbsize = st.sbsize) : WF st1 := by
  constructor
  · intro bn1 bn2 h1 h2 hne ha1 ha2
    rw [haddr bn1] at ha1 ⊢
    rw [haddr bn2] at ha2 ⊢
    exact hwf.inj bn1 bn2 h1 h2 hne ha1 ha2
  · intro bn h1 ha
    rw [haddr bn] at ha ⊢
    rw [hind]
    exact hwf.indNotData bn h1 ha
  · intro x hx hbm2
    rw [hsb] at hx
    rw [hbm] at hbm2
    exact hwf.freeNotZero x hx hbm2
  · intro x hx hbm2 bn h1
    rw [hsb] at hx
    rw [hbm] at hbm2
    rw [haddr bn]
    exact hwf.freeNotData x hx hbm2 bn h1
  · intro x hx hbm2
    rw [hsb] at hx
    rw [hbm] at hbm2
    rw [hind]
    exact hwf.freeNotInd x hx hbm2

theorem chunk_arith {off i : Nat} (h : i < BSIZE - off % BSIZE) :
    (off + i) / BSIZE = off / BSIZE ∧ (off + i) % BSIZE = off % BSIZE + i := by
  have hB : BSIZE = 1024 := rfl
  rw [hB] at h ⊢
  omega

theorem div_lt_of_lt_mul_MAXFILE {off : Nat} (h : off < MAXFILE * BSIZE) :
    off / BSIZE < MAXFILE := by
  have hB : BSIZE = 1024 := rfl
  have hM : MAXFILE = 268 := rfl
  rw [hB]
  rw [hB, hM] at h
  rw [hM]
  omega

theorem range_map_split {α : Type} (f : Nat → α) (m k : Nat) :
    (List.range (m + k)).map f =
      (List.range m).map f ++ (List.range k).map (fun i => f (m + i)) := by
  induction k with
  | zero => simp
  | succ k ih =>
    have he : m + (k + 1) = (m + k) + 1 := by omega
    rw [he, List.range_succ, List.map_append, ih, List.range_succ, List.map_append]
    simp

theorem writeiLoop_spec :
    ∀ (n : Nat) (st : FS) (src : Nat → Nat) (off : Nat) (st' : FS),
      WF st → off + n ≤ MAXFILE * BSIZE →
      writeiLoop st src off n = some (n, st') →
      WF st' ∧ st'.size = st.size ∧ st'.sbsize = st.sbsize ∧
      (∀ bn, bn < MAXFILE → addrOf st bn ≠ 0 → addrOf st' bn = addrOf st bn) ∧
      (∀ bn, bn < MAXFILE → addrOf st bn ≠ 0 → bn < off / BSIZE →
        ∀ i, st'.disk (addrOf st bn) i = st.disk (addrOf st bn) i) ∧
      (∀ i, i < n → addrOf st' ((off + i) / BSIZE) ≠ 0 ∧
        st'.disk (addrOf st' ((off + i) / BSIZE)) ((off + i) % BSIZE) = src i) := by
  intro n
  induction n using Nat.strong_induction_on with
  | _ n ih =>
  intro st src off st' hwf hb hrun
  rw [writeiLoop] at hrun
  by_cases hn : n = 0
  · rw [dif_pos hn] at hrun
    have h := Option.some.inj hrun
    have hs : st = st' := congrArg Prod.snd h
    subst hs
    subst hn
    refine ⟨hwf, rfl, rfl, fun bn _ _ => rfl, fun bn _ _ _ i => rfl, ?_⟩
    intro i hi
    exact absurd hi (by omega)
  · rw [dif_neg hn] at hrun
    have hBmod : off % BSIZE < BSIZE := Nat.mod_lt _ (by norm_num [BSIZE])
    have hoff_lt : off < MAXFILE * BSIZE := by omega
    have hbn0 : off / BSIZE < MAXFILE := div_lt_of_lt_mul_MAXFILE hoff_lt
    cases hb0 : bmap st (off / BSIZE) with
    | none =>
      rw [hb0] at hrun
      exact absurd hrun (by simp)
    | some r =>
      rcases r with ⟨addr, st1⟩
      rw [hb0] at hrun
      cases addr with
      | zero =>
        have h := Option.some.inj hrun
        have h0 : (0 : Nat) = n := congrArg Prod.fst h
        exact absurd h0.symm hn
      | succ k =>
        have hrun2 : (match writeiLoop
            (writeBytes st1 (Nat.succ k) (off % BSIZE) src (min n (BSIZE - off % BSIZE)))
            (fun i => src (i + min n (BSIZE - off % BSIZE)))
            (off + min n (BSIZE - off % BSIZE)) (n - min n (BSIZE - off % BSIZE)) with
          | none => none
          | some (tot, st3) => some (min n (BSIZE - off % BSIZE) + tot, st3)) =
            some (n, st') := hrun
      /- name the chunk length and the state after the chunk copy -/
        set m := min n (BSIZE - off % BSIZE) with hm
        set st2 := writeBytes st1 (Nat.succ k) (off % BSIZE) src m with hst2
        have hm1 : 1 ≤ m := by omega
        have hmn : m ≤ n := by omega
        have hok := bmap_sound hwf hbn0 hb0 (Nat.succ_ne_zero k)
        cases hrec : writeiLoop st2 (fun i => src (i + m)) (off + m) (n - m) with
        | none =>
          rw [hrec] at hrun2
          exact absurd hrun2 (by simp)
        | some p =>
          rcases p with ⟨tot, st3⟩
          rw [hrec] at hrun2
          have h := Option.some.inj hrun2
          have htot : m + tot = n := congrArg Prod.fst h
          have hst3 : st3 = st' := congrArg Prod.snd h
          subst st3
          have haddr_ne_ind : Nat.succ k ≠ st1.addrs NDIRECT := by
            have h2 := hok.wf.indNotData (off / BSIZE) hbn0
              (by rw [hok.here]; exact Nat.succ_ne_zero k)
            rw [hok.here] at h2
            exact h2
          have haddr2 : ∀ bn, addrOf st2 bn = addrOf st1 bn :=
            addrOf_writeBytes haddr_ne_ind (off % BSIZE) src m
          have hwf2 : WF st2 := WF_of_addrOf_eq hok.wf haddr2 rfl rfl rfl
          have hb2 : (off + m) + (n - m) ≤ MAXFILE * BSIZE := by omega
          have hrec' : writeiLoop st2 (fun i => src (i + m)) (off + m) (n - m) =
              some (n - m, st') := by
            rw [hrec, show n - m = tot by omega]
          obtain ⟨hwf', hsize', hsb', hP1', hP3', hP2'⟩ :=
            ih (n - m) (by omega) st2 _ (off + m) st' hwf2 hb2 hrec'
          have haddr_st2 : addrOf st2 (off / BSIZE) = Nat.succ k :=
            (haddr2 _).trans hok.here
          refine ⟨hwf', ?_, ?_, ?_, ?_, ?_⟩
          · exact hsize'.trans hok.size_eq
          · exact hsb'.trans hok.sbsize_eq
          · intro bn hbn hnz2
            have h1 : addrOf st1 bn = addrOf st bn := by
              by_cases e : bn = off / BSIZE
              · subst e
                rw [hok.here]
                exact hok.cached hnz2
              · exact hok.other bn hbn e
            have h2 : addrOf st2 bn = addrOf st bn := (haddr2 bn).trans h1
            rw [hP1' bn hbn (by rw [h2]; exact hnz2), h2]
          · intro bn hbn hnz2 hlt i
            have hne0 : bn ≠ off / BSIZE := by omega
            have h1 : addrOf st1 bn = addrOf st bn := hok.other bn hbn hne0
            have hd1 := hok.oldPres bn hbn hnz2
            have hane : addrOf st bn ≠ Nat.succ k := by
              have h3 := hok.wf.inj bn (off / BSIZE) hbn hbn0 hne0
                (by rw [h1]; exact hnz2)
                (by rw [hok.here]; exact Nat.succ_ne_zero k)
              rw [h1, hok.here] at h3
              exact h3
            have hd2 : ∀ j, st2.disk (addrOf st bn) j = st1.disk (addrOf st bn) j := by
              intro j
              rw [hst2, writeBytes_disk_ne st1 (off % BSIZE) src m hane]
            have hlt2 : bn < (off + m) / BSIZE := by
              have h4 : off / BSIZE ≤ (off + m) / BSIZE :=
                Nat.div_le_div_right (by omega)
              omega
            have he : addrOf st2 bn = addrOf st bn := (haddr2 bn).trans h1
            have hd3 := hP3' bn hbn (by rw [he]; exact hnz2) hlt2
            rw [he] at hd3
            rw [hd3 i, hd2 i, hd1 i]
          · intro i hi
            by_cases him : i < m
            · obtain ⟨hdiv, hmod⟩ := chunk_arith (show i < BSIZE - off % BSIZE by omega)
              rw [hdiv]
              have hA : addrOf st' (off / BSIZE) = Nat.succ k := by
                rw [hP1' (off / BSIZE) hbn0
                  (by rw [haddr_st2]; exact Nat.succ_ne_zero k), haddr_st2]
              refine ⟨by rw [hA]; exact Nat.succ_ne_zero k, ?_⟩
              rw [hA, hmod]
              have hin : st2.disk (Nat.succ k) (off % BSIZE + i) = src i := by
                rw [hst2,
                  writeBytes_disk_in st1 (Nat.succ k) (off % BSIZE) src m
                    (by omega) (by omega)]
                congr 1
                omega
              have hpres : st'.disk (Nat.succ k) (off % BSIZE + i) =
                  st2.disk (Nat.succ k) (off % BSIZE + i) := by
                by_cases hnm : n - m = 0
                · rw [writeiLoop, dif_pos hnm] at hrec'
                  have h2 := Option.some.inj hrec'
                  have h3 : st2 = st' := congrArg Prod.snd h2
                  rw [← h3]
                · have hm_eq : m = BSIZE - off % BSIZE := by omega
                  have hlt3 : off / BSIZE < (off + m) / BSIZE := by
                    have hB : BSIZE = 1024 := rfl
                    rw [hB] at hm_eq hBmod ⊢
                    omega
                  have h4 := hP3' (off / BSIZE) hbn0
                    (by rw [haddr_st2]; exact Nat.succ_ne_zero k) hlt3
                  rw [haddr_st2] at h4
                  exact h4 _
              rw [hpres, hin]
            · have h2 := hP2' (i - m) (by omega)
              have he : off + m + (i - m) = off + i := by omega
              rw [he] at h2
              refine ⟨h2.1, ?_⟩
              have h3 := h2.2
              simp only at h3
              rw [show i - m + m = i by omega] at h3
              exact h3

theorem readiLoop_spec :
    ∀ (n : Nat) (st : FS) (off : Nat),
      off + n ≤ MAXFILE * BSIZE →
      (∀ i, i < n → addrOf st ((off + i) / BSIZE) ≠ 0) →
      readiLoop st off n =
        some ((List.range n).map
          (fun i => st.disk (addrOf st ((off + i) / BSIZE)) ((off + i) % BSIZE)), st) := by
  intro n
  induction n using Nat.strong_induction_on with
  | _ n ih =>
  intro st off hb ha
  rw [readiLoop]
  by_cases hn : n = 0
  · subst hn
    rw [dif_pos rfl]
    simp
  · rw [dif_neg hn]
    have hBmod : off % BSIZE < BSIZE := Nat.mod_lt _ (by norm_num [BSIZE])
    have hbn0 : off / BSIZE < MAXFILE := div_lt_of_lt_mul_MAXFILE (by omega)
    have hnz : addrOf st (off / BSIZE) ≠ 0 := by
      have h0 := ha 0 (by omega)
      simpa using h0
    have hcac := bmap_cached hbn0 hnz
    cases hA : addrOf st (off / BSIZE) with
    | zero => exact absurd hA hnz
    | succ a =>
      rw [hA] at hcac
      rw [hcac]
      show (match readiLoop st (off + min n (BSIZE - off % BSIZE))
          (n - min n (BSIZE - off % BSIZE)) with
        | none => none
        | some (rest, st2) =>
          some ((List.range (min n (BSIZE - off % BSIZE))).map
            (fun i => st.disk (Nat.succ a) (off % BSIZE + i)) ++ rest, st2)) =
        some ((List.range n).map
          (fun i => st.disk (addrOf st ((off + i) / BSIZE)) ((off + i) % BSIZE)), st)
      set m := min n (BSIZE - off % BSIZE) with hm
      have hm1 : 1 ≤ m := by omega
      have hmn : m ≤ n := by omega
      have ha2 : ∀ i, i < n - m → addrOf st ((off + m + i) / BSIZE) ≠ 0 := by
        intro i hi
        have h2 := ha (m + i) (by omega)
        rw [show off + (m + i) = off + m + i by omega] at h2
        exact h2
      rw [ih (n - m) (by omega) st (off + m) (by omega) ha2]
      dsimp only
      have hsplit := range_map_split
        (fun i => st.disk (addrOf st ((off + i) / BSIZE)) ((off + i) % BSIZE)) m (n - m)
      rw [show m + (n - m) = n by omega] at hsplit
      have hA2 : (List.range m).map (fun i => st.disk (Nat.succ a) (off % BSIZE + i)) =
          (List.range m).map
            (fun i => st.disk (addrOf st ((off + i) / BSIZE)) ((off + i) % BSIZE)) := by
        apply List.map_congr_left
        intro i hi
        rw [List.mem_range] at hi
        obtain ⟨hdiv, hmod⟩ := chunk_arith (show i < BSIZE - off % BSIZE by omega)
        rw [hdiv, hmod, hA]
      have hB2 : (List.range (n - m)).map
            (fun i => st.disk (addrOf st ((off + m + i) / BSIZE)) ((off + m + i) % BSIZE)) =
          (List.range (n - m)).map
            (fun i => st.disk (addrOf st ((off + (m + i)) / BSIZE)) ((off + (m + i)) % BSIZE)) := by
        apply List.map_congr_left
        intro i hi
        rw [show off + (m + i) = off + m + i by omega]
      rw [hsplit, ← hA2, hB2]

/-- Claim C1: for every file inode, offset and byte count, if writei of `n`
bytes at offset `off` (performed with the inode lock held inside a log
transaction, both outside this sequential model) returns `n`, then an
immediately following readi of `n` bytes at offset `off` returns exactly the
written bytes, and the inode's size afterwards is the maximum of the
previous size and `off + n`. -/
theorem write_then_read (st : FS) (src : Nat → Nat) (off n : Nat) (st' : FS)
    (hwf : WF st)
    (hw : writei st src off n = some ((n : Int), st')) :
    readi st' off n = some ((List.range n).map src, st') ∧
    st'.size = max st.size (off + n) := by
  unfold writei at hw
  by_cases hg1 : off > st.size ∨ (off + n) % 2 ^ 32 < off
  · rw [if_pos hg1] at hw
    have h := Option.some.inj hw
    have h2 : (-1 : Int) = (n : Int) := congrArg Prod.fst h
    exact absurd h2 (by omega)
  · rw [if_neg hg1] at hw
    by_cases hg2 : off + n > MAXFILE * BSIZE
    · rw [if_pos hg2] at hw
      have h := Option.some.inj hw
      have h2 : (-1 : Int) = (n : Int) := congrArg Prod.fst h
      exact absurd h2 (by omega)
    · rw [if_neg hg2] at hw
      cases hrun : writeiLoop st src off n with
      | none =>
        rw [hrun] at hw
        exact absurd hw (by simp)
      | some p =>
        rcases p with ⟨tot, st1⟩
        rw [hrun] at hw
        have h := Option.some.inj hw
        have htot : (tot : Int) = (n : Int) := congrArg Prod.fst h
        have htot2 : tot = n := by exact_mod_cast htot
        subst tot
        have hst : (if off + n > st1.size then { st1 with size := off + n } else st1) =
            st' := congrArg Prod.snd h
        obtain ⟨hwf1, hsize1, hsb1, hP1, hP3, hP2⟩ :=
          writeiLoop_spec n st src off st1 hwf (by omega) hrun
        push_neg at hg1
        have hsize' : st'.size = max st.size (off + n) := by
          rw [← hst]
          by_cases hc : off + n > st1.size
          · rw [if_pos hc]
            show off + n = max st.size (off + n)
            rw [hsize1] at hc
            omega
          · rw [if_neg hc]
            rw [hsize1] at hc ⊢
            omega
        have hdisk' : st'.disk = st1.disk := by
          rw [← hst]; split <;> rfl
        have haddrs' : st'.addrs = st1.addrs := by
          rw [← hst]; split <;> rfl
        have haddrOf' : ∀ bn, addrOf st' bn = addrOf st1 bn := by
          intro bn
          unfold addrOf
          rw [haddrs', hdisk']
        refine ⟨?_, hsize'⟩
        unfold readi
        have hg1' : ¬(off > st'.size ∨ (off + n) % 2 ^ 32 < off) := by
          push_neg
          refine ⟨?_, hg1.2⟩
          rw [hsize']
          omega
        rw [if_neg hg1']
        have hnoclamp : ¬ (off + n > st'.size) := by
          rw [hsize']
          omega
        rw [if_neg hnoclamp]
        have haP2 : ∀ i, i < n → addrOf st' ((off + i) / BSIZE) ≠ 0 := by
          intro i hi
          rw [haddrOf']
          exact (hP2 i hi).1
        rw [readiLoop_spec n st' off (by omega) haP2]
        have hlist : (List.range n).map
            (fun i => st'.disk (addrOf st' ((off + i) / BSIZE)) ((off + i) % BSIZE)) =
            (List.range n).map src := by
          apply List.map_congr_left
          intro i hi
          rw [List.mem_range] at hi
          rw [haddrOf', hdisk']
          exact (hP2 i hi).2
        rw [hlist]

/-- Concrete state for the C1 witness: an empty file over a three-block
bitmap where block 0 is in use and blocks 1 and 2 are free. -/
def c1st : FS :=
  { size := 0, addrs := fun _ => 0, disk := fun _ _ => 0,
    bitmap := fun b => b == 0, sbsize := 3 }

/-- Source bytes for the C1 witness. -/
def c1src : Nat → Nat := fun i => 65 + i

theorem c1_addrOf (bn : Nat) : addrOf c1st bn = 0 := by
  unfold addrOf c1st
  by_cases h : bn < NDIRECT <;> simp [h]

theorem c1_wf : WF c1st := by
  constructor
  · intro bn1 bn2 _ _ _ h1 _
    exact absurd (c1_addrOf bn1) h1
  · intro bn _ h1
    exact absurd (c1_addrOf bn) h1
  · intro b _ hb
    simp [c1st] at hb
    exact hb
  · intro b _ hb bn _
    rw [c1_addrOf bn]
    simp [c1st] at hb
    omega
  · intro b _ hb
    show c1st.addrs NDIRECT ≠ b
    simp [c1st] at hb ⊢
    omega

/-- The state produced by the witness write: block 1 allocated, bound to
the first direct pointer, holding the written byte; size 1. -/
def c1stW : FS :=
  { writeBytes (setAddr (markAlloc c1st 1) 0 1) 1 0 c1src 1 with size := 1 }

theorem writeiLoop_zero (st : FS) (src : Nat → Nat) (off : Nat) :
    writeiLoop st src off 0 = some (0, st) := by
  rw [writeiLoop, dif_pos rfl]

theorem writeiLoop_succ_eq (st : FS) (src : Nat → Nat) (off n : Nat) (hn : n ≠ 0)
    (addr : Nat) (st1 : FS)
    (hb : bmap st (off / BSIZE) = some (Nat.succ addr, st1))
    {tot : Nat} {st3 : FS}
    (hrec : writeiLoop
      (writeBytes st1 (Nat.succ addr) (off % BSIZE) src (min n (BSIZE - off % BSIZE)))
      (fun i => src (i + min n (BSIZE - off % BSIZE)))
      (off + min n (BSIZE - off % BSIZE)) (n - min n (BSIZE - off % BSIZE)) =
        some (tot, st3)) :
    writeiLoop st src off n = some (min n (BSIZE - off % BSIZE) + tot, st3) := by
  rw [writeiLoop, dif_neg hn, hb]
  show (match writeiLoop
      (writeBytes st1 (Nat.succ addr) (off % BSIZE) src (min n (BSIZE - off % BSIZE)))
      (fun i => src (i + min n (BSIZE - off % BSIZE)))
      (off + min n (BSIZE - off % BSIZE)) (n - min n (BSIZE - off % BSIZE)) with
    | none => none
    | some (tot, st3) => some (min n (BSIZE - off % BSIZE) + tot, st3)) =
      some (min n (BSIZE - off % BSIZE) + tot, st3)
  rw [hrec]

theorem c1_loop : writeiLoop c1st c1src 0 1 =
    some (1, writeBytes (setAddr (markAlloc c1st 1) 0 1) 1 0 c1src 1) := by
  have hb : bmap c1st (0 / BSIZE) = some (1, setAddr (markAlloc c1st 1) 0 1) := by rfl
  have h := writeiLoop_succ_eq c1st c1src 0 1 (by norm_num) 0
    (setAddr (markAlloc c1st 1) 0 1) hb (writeiLoop_zero _ _ _)
  norm_num [BSIZE] at h
  exact h

theorem c1_hw : writei c1st c1src 0 1 = some ((1 : Int), c1stW) := by
  unfold writei
  rw [if_neg (by simp [c1st]), if_neg (by norm_num [MAXFILE, BSIZE, NDIRECT, NINDIRECT]),
    c1_loop]
  rfl

/-- Witness for C1: writing one byte at offset 0 into the empty file and
reading it back. -/
theorem write_then_read_witness :
    readi c1stW 0 1 = some ((List.range 1).map c1src, c1stW) ∧
    c1stW.size = max c1st.size (0 + 1) :=
  write_then_read c1st c1src 0 1 c1stW c1_wf c1_hw

/-! ### Error handling of writei (claim C6) -/

theorem writeiLoop_total :
    ∀ (n : Nat) (st : FS) (src : Nat → Nat) (off : Nat),
      off + n ≤ MAXFILE * BSIZE →
      ∃ tot st1, writeiLoop st src off n = some (tot, st1) ∧ tot ≤ n := by
  intro n
  induction n using Nat.strong_induction_on with
  | _ n ih =>
  intro st src off hb
  rw [writeiLoop]
  by_cases hn : n = 0
  · rw [dif_pos hn]
    exact ⟨0, st, rfl, by omega⟩
  · rw [dif_neg hn]
    have hBmod : off % BSIZE < BSIZE := Nat.mod_lt _ (by norm_num [BSIZE])
    have hbn0 : off / BSIZE < MAXFILE := div_lt_of_lt_mul_MAXFILE (by omega)
    obtain ⟨r, hr⟩ := bmap_progress st hbn0
    rcases r with ⟨addr, st1⟩
    rw [hr]
    cases addr with
    | zero => exact ⟨0, st1, rfl, by omega⟩
    | succ k =>
      obtain ⟨tot, st3, hrec, htle⟩ := ih (n - min n (BSIZE - off % BSIZE)) (by omega)
        (writeBytes st1 (Nat.succ k) (off % BSIZE) src (min n (BSIZE - off % BSIZE)))
        (fun i => src (i + min n (BSIZE - off % BSIZE)))
        (off + min n (BSIZE - off % BSIZE)) (by omega)
      refine ⟨min n (BSIZE - off % BSIZE) + tot, st3, ?_, by omega⟩
      show (match writeiLoop
          (writeBytes st1 (Nat.succ k) (off % BSIZE) src (min n (BSIZE - off % BSIZE)))
          (fun i => src (i + min n (BSIZE - off % BSIZE)))
          (off + min n (BSIZE - off % BSIZE)) (n - min n (BSIZE - off % BSIZE)) with
        | none => none
        | some (tot, st3) => some (min n (BSIZE - off % BSIZE) + tot, st3)) =
          some (min n (BSIZE - off % BSIZE) + tot, st3)
      rw [hrec]

theorem bmap_fail_sound {st : FS} (hwf : WF st) {bn : Nat} {st1 : FS}
    (hbn : bn < MAXFILE)
    (hrun : bmap st bn = some (0, st1)) :
    WF st1 ∧ st1.size = st.size ∧ st1.sbsize = st.sbsize ∧
    ballocFind st1 = none ∧ addrOf st1 bn = 0 ∧
    (∀ bn2, addrOf st1 bn2 = addrOf st bn2) ∧
    (∀ bn2, bn2 < MAXFILE → addrOf st bn2 ≠ 0 →
      ∀ i, st1.disk (addrOf st bn2) i = st.disk (addrOf st bn2) i) := by
  unfold bmap at hrun
  by_cases h1 : bn < NDIRECT
  · rw [if_pos h1] at hrun
    by_cases h0 : st.addrs bn = 0
    · rw [if_pos h0] at hrun
      cases hfind : ballocFind st with
      | none =>
        rw [balloc_of_none hfind] at hrun
        have h := Option.some.inj hrun
        have hs : st = st1 := congrArg Prod.snd h
        subst st1
        refine ⟨hwf, rfl, rfl, hfind, ?_, fun _ => rfl, fun _ _ _ _ => rfl⟩
        unfold addrOf
        simp [h1, h0]
      | some b =>
        rw [balloc_of_some hfind] at hrun
        obtain ⟨hbnz, -, -⟩ := fresh_facts hwf hfind
        cases b with
        | zero => exact absurd rfl hbnz
        | succ k =>
          have hrun2 : some (Nat.succ k,
              setAddr (markAlloc st (Nat.succ k)) bn (Nat.succ k)) =
              some (0, st1) := hrun
          have h := Option.some.inj hrun2
          exact absurd (congrArg Prod.fst h) (Nat.succ_ne_zero k)
    · rw [if_neg h0] at hrun
      have h := Option.some.inj hrun
      exact absurd (congrArg Prod.fst h) h0
  · have h2 := indirect_lt hbn h1
    rw [if_neg h1, if_pos h2] at hrun
    by_cases hia : st.addrs NDIRECT = 0
    · rw [if_pos hia] at hrun
      cases hfind : ballocFind st with
      | none =>
        rw [balloc_of_none hfind] at hrun
        have h := Option.some.inj hrun
        have hs : st = st1 := congrArg Prod.snd h
        subst st1
        refine ⟨hwf, rfl, rfl, hfind, ?_, fun _ => rfl, fun _ _ _ _ => rfl⟩
        unfold addrOf
        simp [h1, hia]
      | some ia0 =>
        rw [balloc_of_some hfind] at hrun
        obtain ⟨hianz, -, -⟩ := fresh_facts hwf hfind
        cases ia0 with
        | zero => exact absurd rfl hianz
        | succ k =>
          have hrun2 : bmapInd (setAddr (markAlloc st (Nat.succ k)) NDIRECT (Nat.succ k))
              (Nat.succ k) (bn - NDIRECT) = some (0, st1) := hrun
          obtain ⟨hwfA, haddrA, hselfA, hdiskA⟩ := allocInd_facts hwf hfind hia
          have hz : (setAddr (markAlloc st (Nat.succ k)) NDIRECT (Nat.succ k)).disk
              (Nat.succ k) (bn - NDIRECT) = 0 :=
            markAlloc_disk_self st (Nat.succ k) _
          unfold bmapInd at hrun2
          rw [if_pos hz] at hrun2
          cases hfindA : ballocFind (setAddr (markAlloc st (Nat.succ k)) NDIRECT
              (Nat.succ k)) with
          | none =>
            rw [balloc_of_none hfindA] at hrun2
            have h := Option.some.inj hrun2
            have hs : setAddr (markAlloc st (Nat.succ k)) NDIRECT (Nat.succ k) = st1 :=
              congrArg Prod.snd h
            subst st1
            refine ⟨hwfA, rfl, rfl, hfindA, ?_, haddrA, hdiskA⟩
            rw [haddrA bn]
            unfold addrOf
            simp [h1, hia]
          | some b =>
            rw [balloc_of_some hfindA] at hrun2
            obtain ⟨hbnz, -, -⟩ := fresh_facts hwfA hfindA
            cases b with
            | zero => exact absurd rfl hbnz
            | succ j =>
              have hrun3 : some (Nat.succ j,
                  setDiskWord (markAlloc (setAddr (markAlloc st (Nat.succ k)) NDIRECT
                    (Nat.succ k)) (Nat.succ j)) (Nat.succ k) (bn - NDIRECT)
                    (Nat.succ j)) = some (0, st1) := hrun2
              have h := Option.some.inj hrun3
              exact absurd (congrArg Prod.fst h) (Nat.succ_ne_zero j)
    · rw [if_neg hia] at hrun
      unfold bmapInd at hrun
      by_cases hdz : st.disk (st.addrs NDIRECT) (bn - NDIRECT) = 0
      · rw [if_pos hdz] at hrun
        cases hfind : ballocFind st with
        | none =>
          rw [balloc_of_none hfind] at hrun
          have h := Option.some.inj hrun
          have hs : st = st1 := congrArg Prod.snd h
          subst st1
          refine ⟨hwf, rfl, rfl, hfind, ?_, fun _ => rfl, fun _ _ _ _ => rfl⟩
          unfold addrOf
          simp [h1, hia, hdz]
        | some b =>
          rw [balloc_of_some hfind] at hrun
          obtain ⟨hbnz, -, -⟩ := fresh_facts hwf hfind
          cases b with
          | zero => exact absurd rfl hbnz
          | succ j =>
            have hrun2 : some (Nat.succ j,
                setDiskWord (markAlloc st (Nat.succ j)) (st.addrs NDIRECT)
                  (bn - NDIRECT) (Nat.succ j)) = some (0, st1) := hrun
            have h := Option.some.inj hrun2
            exact absurd (congrArg Prod.fst h) (Nat.succ_ne_zero j)
      · rw [if_neg hdz] at hrun
        have h := Option.some.inj hrun
        exact absurd (congrArg Prod.fst h) hdz

theorem writeiLoop_partial :
    ∀ (n : Nat) (st : FS) (src : Nat → Nat) (off : Nat) (tot : Nat) (st' : FS),
      WF st → off + n ≤ MAXFILE * BSIZE →
      writeiLoop st src off n = some (tot, st') →
      tot ≤ n ∧ WF st' ∧ st'.size = st.size ∧ st'.sbsize = st.sbsize ∧
      (∀ bn, bn < MAXFILE → addrOf st bn ≠ 0 → addrOf st' bn = addrOf st bn) ∧
      (∀ bn, bn < MAXFILE → addrOf st bn ≠ 0 → bn < off / BSIZE →
        ∀ i, st'.disk (addrOf st bn) i = st.disk (addrOf st bn) i) ∧
      (∀ i, i < tot → addrOf st' ((off + i) / BSIZE) ≠ 0 ∧
        st'.disk (addrOf st' ((off + i) / BSIZE)) ((off + i) % BSIZE) = src i) ∧
      (tot < n → ballocFind st' = none ∧ addrOf st' ((off + tot) / BSIZE) = 0) := by
  intro n
  induction n using Nat.strong_induction_on with
  | _ n ih =>
  intro st src off tot st' hwf hb hrun
  rw [writeiLoop] at hrun
  by_cases hn : n = 0
  · rw [dif_pos hn] at hrun
    have h := Option.some.inj hrun
    have ht : (0 : Nat) = tot := congrArg Prod.fst h
    have hs : st = st' := congrArg Prod.snd h
    subst st'
    subst tot
    subst hn
    refine ⟨by omega, hwf, rfl, rfl, fun bn _ _ => rfl, fun bn _ _ _ i => rfl, ?_, ?_⟩
    · intro i hi
      exact absurd hi (by omega)
    · intro hlt
      exact absurd hlt (by omega)
  · rw [dif_neg hn] at hrun
    have hBmod : off % BSIZE < BSIZE := Nat.mod_lt _ (by norm_num [BSIZE])
    have hoff_lt : off < MAXFILE * BSIZE := by omega
    have hbn0 : off / BSIZE < MAXFILE := div_lt_of_lt_mul_MAXFILE hoff_lt
    cases hb0 : bmap st (off / BSIZE) with
    | none =>
      rw [hb0] at hrun
      exact absurd hrun (by simp)
    | some r =>
      rcases r with ⟨addr, st1⟩
      rw [hb0] at hrun
      cases addr with
      | zero =>
        have h := Option.some.inj hrun
        have ht : (0 : Nat) = tot := congrArg Prod.fst h
        have hs : st1 = st' := congrArg Prod.snd h
        subst st'
        subst tot
        obtain ⟨hwf1, hsize1, hsb1, hfind1, haddr0, hptw, hdiskp⟩ :=
          bmap_fail_sound hwf hbn0 hb0
        refine ⟨by omega, hwf1, hsize1, hsb1, ?_, ?_, ?_, ?_⟩
        · intro bn hbn2 hnz
          rw [hptw bn]
        · intro bn hbn2 hnz _ i
          exact hdiskp bn hbn2 hnz i
        · intro i hi
          exact absurd hi (by omega)
        · intro _
          refine ⟨hfind1, ?_⟩
          rw [show off + 0 = off by omega]
          exact haddr0
      | succ k =>
        have hrun2 : (match writeiLoop
            (writeBytes st1 (Nat.succ k) (off % BSIZE) src (min n (BSIZE - off % BSIZE)))
            (fun i => src (i + min n (BSIZE - off % BSIZE)))
            (off + min n (BSIZE - off % BSIZE)) (n - min n (BSIZE - off % BSIZE)) with
          | none => none
          | some (tot2, st3) => some (min n (BSIZE - off % BSIZE) + tot2, st3)) =
            some (tot, st') := hrun
        set m := min n (BSIZE - off % BSIZE) with hm
        set st2 := writeBytes st1 (Nat.succ k) (off % BSIZE) src m with hst2
        have hm1 : 1 ≤ m := by omega
        have hmn : m ≤ n := by omega
        have hok := bmap_sound hwf hbn0 hb0 (Nat.succ_ne_zero k)
        cases hrec : writeiLoop st2 (fun i => src (i + m)) (off + m) (n - m) with
        | none =>
          rw [hrec] at hrun2
          exact absurd hrun2 (by simp)
        | some p =>
          rcases p with ⟨tot2, st3⟩
          rw [hrec] at hrun2
          have h := Option.some.inj hrun2
          have htot : m + tot2 = tot := congrArg Prod.fst h
          have hst3 : st3 = st' := congrArg Prod.snd h
          subst st3
          subst tot
          have haddr_ne_ind : Nat.succ k ≠ st1.addrs NDIRECT := by
            have h2 := hok.wf.indNotData (off / BSIZE) hbn0
              (by rw [hok.here]; exact Nat.succ_ne_zero k)
            rw [hok.here] at h2
            exact h2
          have haddr2 : ∀ bn, addrOf st2 bn = addrOf st1 bn :=
            addrOf_writeBytes haddr_ne_ind (off % BSIZE) src m
          have hwf2 : WF st2 := WF_of_addrOf_eq hok.wf haddr2 rfl rfl rfl
          have hb2 : (off + m) + (n - m) ≤ MAXFILE * BSIZE := by omega
          obtain ⟨htle2, hwf', hsize', hsb', hP1', hP3', hP2', hP4'⟩ :=
            ih (n - m) (by omega) st2 _ (off + m) tot2 st' hwf2 hb2 hrec
          have haddr_st2 : addrOf st2 (off / BSIZE) = Nat.succ k :=
            (haddr2 _).trans hok.here
          refine ⟨by omega, hwf', ?_, ?_, ?_, ?_, ?_, ?_⟩
          · exact hsize'.trans hok.size_eq
          · exact hsb'.trans hok.sbsize_eq
          · intro bn hbn2 hnz2
            have h1 : addrOf st1 bn = addrOf st bn := by
              by_cases e : bn = off / BSIZE
              · subst e
                rw [hok.here]
                exact hok.cached hnz2
              · exact hok.other bn hbn2 e
            have h2 : addrOf st2 bn = addrOf st bn := (haddr2 bn).trans h1
            rw [hP1' bn hbn2 (by rw [h2]; exact hnz2), h2]
          · intro bn hbn2 hnz2 hlt i
            have hne0 : bn ≠ off / BSIZE := by omega
            have h1 : addrOf st1 bn = addrOf st bn := hok.other bn hbn2 hne0
            have hd1 := hok.oldPres bn hbn2 hnz2
            have hane : addrOf st bn ≠ Nat.succ k := by
              have h3 := hok.wf.inj bn (off / BSIZE) hbn2 hbn0 hne0
                (by rw [h1]; exact hnz2)
                (by rw [hok.here]; exact Nat.succ_ne_zero k)
              rw [h1, hok.here] at h3
              exact h3
            have hd2 : ∀ j, st2.disk (addrOf st bn) j = st1.disk (addrOf st bn) j := by
              intro j
              rw [hst2, writeBytes_disk_ne st1 (off % BSIZE) src m hane]
            have hlt2 : bn < (off + m) / BSIZE := by
              have h4 : off / BSIZE ≤ (off + m) / BSIZE :=
                Nat.div_le_div_right (by omega)
              omega
            have he : addrOf st2 bn = addrOf st bn := (haddr2 bn).trans h1
            have hd3 := hP3' bn hbn2 (by rw [he]; exact hnz2) hlt2
            rw [he] at hd3
            rw [hd3 i, hd2 i, hd1 i]
          · intro i hi
            by_cases him : i < m
            · obtain ⟨hdiv, hmod⟩ := chunk_arith (show i < BSIZE - off % BSIZE by omega)
              rw [hdiv]
              have hA : addrOf st' (off / BSIZE) = Nat.succ k := by
                rw [hP1' (off / BSIZE) hbn0
                  (by rw [haddr_st2]; exact Nat.succ_ne_zero k), haddr_st2]
              refine ⟨by rw [hA]; exact Nat.succ_ne_zero k, ?_⟩
              rw [hA, hmod]
              have hin : st2.disk (Nat.succ k) (off % BSIZE + i) = src i := by
                rw [hst2,
                  writeBytes_disk_in st1 (Nat.succ k) (off % BSIZE) src m
                    (by omega) (by omega)]
                congr 1
                omega
              have hpres : st'.disk (Nat.succ k) (off % BSIZE + i) =
                  st2.disk (Nat.succ k) (off % BSIZE + i) := by
                by_cases hnm : n - m = 0
                · rw [writeiLoop, dif_pos hnm] at hrec
                  have h2 := Option.some.inj hrec
                  have h3 : st2 = st' := congrArg Prod.snd h2
                  rw [← h3]
                · have hm_eq : m = BSIZE - off % BSIZE := by omega
                  have hlt3 : off / BSIZE < (off + m) / BSIZE := by
                    have hB : BSIZE = 1024 := rfl
                    rw [hB] at hm_eq hBmod ⊢
                    omega
                  have h4 := hP3' (off / BSIZE) hbn0
                    (by rw [haddr_st2]; exact Nat.succ_ne_zero k) hlt3
                  rw [haddr_st2] at h4
                  exact h4 _
              rw [hpres, hin]
            · have h2 := hP2' (i - m) (by omega)
              have he : off + m + (i - m) = off + i := by omega
              rw [he] at h2
              refine ⟨h2.1, ?_⟩
              have h3 := h2.2
              simp only at h3
              rw [show i - m + m = i by omega] at h3
              exact h3
          · intro hlt
            obtain ⟨hf, ha⟩ := hP4' (by omega)
            refine ⟨hf, ?_⟩
            rw [show off + (m + tot2) = off + m + tot2 by omega]
            exact ha

/-- Claim C6: writei rejects with -1 every request whose end offset exceeds
the maximum file size (NDIRECT + NINDIRECT blocks of BSIZE bytes); every
in-range request returns a byte count `tot ≤ n` that is exactly the number
of bytes written: the first `tot` requested bytes are present on the
written blocks of the final state, and whenever the count is short
(`tot < n`, possibly zero) the write stopped on a block-allocation failure,
i.e. the bitmap of the final state has no free block and the block that
would have held byte `tot` is unmapped. -/
theorem writei_error_handling (st : FS) (src : Nat → Nat) (off n : Nat) :
    (off + n > MAXFILE * BSIZE → writei st src off n = some ((-1 : Int), st)) ∧
    (WF st → off ≤ st.size → off ≤ (off + n) % 2 ^ 32 → off + n ≤ MAXFILE * BSIZE →
      ∃ tot : Nat, ∃ st1, writei st src off n = some ((tot : Int), st1) ∧ tot ≤ n ∧
        (∀ i, i < tot → addrOf st1 ((off + i) / BSIZE) ≠ 0 ∧
          st1.disk (addrOf st1 ((off + i) / BSIZE)) ((off + i) % BSIZE) = src i) ∧
        (tot < n → ballocFind st1 = none ∧ addrOf st1 ((off + tot) / BSIZE) = 0)) := by
  refine ⟨?_, ?_⟩
  · intro hgt
    unfold writei
    by_cases hg1 : off > st.size ∨ (off + n) % 2 ^ 32 < off
    · rw [if_pos hg1]
    · rw [if_neg hg1, if_pos hgt]
  · intro hwf hs hwrap hle
    unfold writei
    rw [if_neg (by omega), if_neg (by omega)]
    obtain ⟨tot, st1, hrun, htle⟩ := writeiLoop_total n st src off hle
    obtain ⟨-, hwf1, hsize1, hsb1, hP1, hP3, hP2, hP4⟩ :=
      writeiLoop_partial n st src off tot st1 hwf hle hrun
    rw [hrun]
    by_cases hc : off + tot > st1.size
    · refine ⟨tot, { st1 with size := off + tot }, ?_, htle, ?_, ?_⟩
      · show some (((tot : Nat) : Int),
            if off + tot > st1.size then { st1 with size := off + tot } else st1) =
            some (((tot : Nat) : Int), { st1 with size := off + tot })
        rw [if_pos hc]
      · exact fun i hi => hP2 i hi
      · exact fun hlt => hP4 hlt
    · refine ⟨tot, st1, ?_, htle, ?_, ?_⟩
      · show some (((tot : Nat) : Int),
            if off + tot > st1.size then { st1 with size := off + tot } else st1) =
            some (((tot : Nat) : Int), st1)
        rw [if_neg hc]
      · exact fun i hi => hP2 i hi
      · exact fun hlt => hP4 hlt

/-- Concrete state for the C6 witness: an empty file on a device whose
two-block bitmap is entirely allocated (disk full). -/
def c6st : FS :=
  { size := 0, addrs := fun _ => 0, disk := fun _ _ => 0,
    bitmap := fun _ => true, sbsize := 2 }

theorem c6_addrOf (bn : Nat) : addrOf c6st bn = 0 := by
  unfold addrOf c6st
  by_cases h : bn < NDIRECT <;> simp [h]

theorem c6_wf : WF c6st := by
  constructor
  · intro bn1 bn2 _ _ _ h1 _
    exact absurd (c6_addrOf bn1) h1
  · intro bn _ h1
    exact absurd (c6_addrOf bn) h1
  · intro b _ hb
    simp [c6st] at hb
  · intro b _ hb
    simp [c6st] at hb
  · intro b _ hb
    simp [c6st] at hb

/-- Witness for C6: a write far past the maximum file size returns -1, and a
five-byte write on the full disk returns a short count tied to the bytes
written (zero here) with the allocation-failure evidence. -/
theorem writei_error_handling_witness :
    writei c6st c1src 0 300000 = some ((-1 : Int), c6st) ∧
    (∃ tot : Nat, ∃ st1, writei c6st c1src 0 5 = some ((tot : Int), st1) ∧ tot ≤ 5 ∧
      (∀ i, i < tot → addrOf st1 ((0 + i) / BSIZE) ≠ 0 ∧
        st1.disk (addrOf st1 ((0 + i) / BSIZE)) ((0 + i) % BSIZE) = c1src i) ∧
      (tot < 5 → ballocFind st1 = none ∧ addrOf st1 ((0 + tot) / BSIZE) = 0)) :=
  ⟨(writei_error_handling c6st c1src 0 300000).1
      (by norm_num [MAXFILE, BSIZE, NDIRECT, NINDIRECT]),
   (writei_error_handling c6st c1src 0 5).2 c6_wf (by norm_num [c6st]) (Nat.zero_le _)
      (by norm_num [MAXFILE, BSIZE, NDIRECT, NINDIRECT])⟩

end SeedOS
